import Mathlib

/-!
Verification development for the StructuredMarkdownEditor (src/script.js).

The JavaScript source is shallowly embedded as follows:
* JS strings are modelled as `Str := List Char`; the functions of the source
  that manipulate text (`split('\n')`, `startsWith`, `trim`, concatenation)
  are mirrored by recursive functions over `Str`.
* The mutable editor object (`this.blocks`, `this.variables`, `this.groups`,
  `this.groupCounter`) becomes an explicit `EditorState` record which every
  operation takes and returns.  JS `Map`s are insertion-ordered association
  lists, exactly like the iteration order the source relies on.
* Generated ids (`block_${Date.now()}_...`, `var_...`) are modelled by a
  monotone counter `idCounter` in the state: each minted id is a fresh natural
  number.  Group ids `group_${n}` are modelled by the counter value `n`.
* `undefined` fields (`order`, `groupId` of imported blocks) are modelled with
  `Option`; the source only reads them through falsy checks (`!block.groupId`)
  or `block.order || 0`, which we mirror with `Option.isNone` / `Option.getD 0`.
* `Array.prototype.sort` with comparator `a.order - b.order` is a stable sort
  by the numeric key; any two stable sorts by the same key coincide, so it is
  modelled by `List.insertionSort` on `≤` of the key, which is stable.
* An uncaught JS `TypeError` is modelled with `Except Unit`: `.error ()` means
  the operation throws (leaving the state as it was at the throw point).
-/

namespace MdEditor

/-- Characters of a JS string. -/
abbrev Str := List Char

/-- Embed a Lean string literal as a `Str`. -/
def S (s : String) : Str := s.data

/-- Whitespace recognised by `String.prototype.trim` and by `\s`
(restricted to the ASCII whitespace that can occur in this development). -/
def isWsChar (c : Char) : Bool := c = ' ' || c = '\t' || c = '\n' || c = '\r'

/-- JS `s.trim()`. -/
def trimS (s : Str) : Str := ((s.dropWhile isWsChar).reverse.dropWhile isWsChar).reverse

/-- JS `s.startsWith(pre)`. -/
def startsWithS (s pre : Str) : Bool := pre.isPrefixOf s

/-- JS `s.includes(pat)` (literal substring test). -/
def strIncludes : Str → Str → Bool
  | [], pat => pat.isEmpty
  | s@(_ :: r), pat => pat.isPrefixOf s || strIncludes r pat

/-- JS `markdown.split('\n')`: always returns at least one piece.
A non-newline head character is prepended to the first piece of the tail. -/
def splitNl : Str → List Str
  | [] => [[]]
  | c :: r =>
    let rest := splitNl r
    if c = '\n' then [] :: rest
    else
      match rest with
      | [] => [[c]]
      | l :: ls => (c :: l) :: ls

/-- Inverse of `splitNl`: join lines with `'\n'`. -/
def joinNl : List Str → Str
  | [] => []
  | [l] => l
  | l :: ls => l ++ '\n' :: joinNl ls

/-- Decimal digits of a natural number. -/
def natToStr (n : Nat) : Str := (Nat.repr n).data

/-- JS `Number.prototype.toString` on an integral value. -/
def intToStr (i : Int) : Str := if i < 0 then '-' :: natToStr i.natAbs else natToStr i.toNat

/-! ## Data model (src/script.js constructor state) -/

/-- The five block types of the editor. -/
inductive BlockType
  | heading
  | paragraph
  | list
  | code
  | table
deriving DecidableEq

/-- Table payload: `{ headers: [...], rows: [[...]] }` (src/script.js lines 70-76). -/
structure TableContent where
  headers : List Str
  rows : List (List Str)
deriving DecidableEq

/-- A block's `content` is plain text for heading/paragraph/list/code and a
`TableContent` for tables. -/
inductive Content
  | text (s : Str)
  | table (t : TableContent)
deriving DecidableEq

/-- A content block (src/script.js lines 49-56).  `order = none` models an
`undefined` order field (the source reads it as `block.order || 0`);
`groupId = none` models both `null` and `undefined`. -/
structure Block where
  id : Nat
  type : BlockType
  content : Content
  groupId : Option Nat
  selected : Bool
  order : Option Int
deriving DecidableEq

/-- A group record (src/script.js lines 510-514). -/
structure Group where
  id : Nat
  name : Str
  order : Option Int
deriving DecidableEq

/-- A variable entry `{ key, value }` (src/script.js line 685). -/
structure VarEntry where
  key : Str
  value : Str
deriving DecidableEq

/-- The whole mutable editor state.  `variables`/`groups` are insertion-ordered
association lists mirroring JS `Map`s; `idCounter` models the source's
`Date.now()`-based fresh-id minting with a monotone counter. -/
structure EditorState where
  blocks : List Block
  vars : List (Nat × VarEntry)
  groups : List (Nat × Group)
  groupCounter : Nat
  idCounter : Nat
deriving DecidableEq

/-- The state of a freshly constructed editor (src/script.js lines 2-10). -/
def initState : EditorState := ⟨[], [], [], 0, 0⟩

/-- `Map.prototype.set`: update in place if the key is present, else append. -/
def jsMapSet {α : Type} (m : List (Nat × α)) (k : Nat) (v : α) : List (Nat × α) :=
  if m.any (fun p => p.1 == k) then m.map (fun p => if p.1 == k then (k, v) else p)
  else m ++ [(k, v)]

/-- `getDefaultContent` (src/script.js lines 64-79). -/
def getDefaultContent : BlockType → Content
  | .heading => .text (S "# New Heading")
  | .paragraph => .text (S "New paragraph content...")
  | .list => .text (S "- Item 1\n- Item 2\n- Item 3")
  | .code => .text (S "```javascript\n// Your code here\nconsole.log(\"Hello World\");\n```")
  | .table => .table ⟨[S "Column 1", S "Column 2", S "Column 3"],
      [[S "Cell 1", S "Cell 2", S "Cell 3"], [S "Cell 4", S "Cell 5", S "Cell 6"]]⟩

/-- `addBlock(type, groupId = null)` (src/script.js lines 47-62).  The fresh
string id is modelled by the counter value. -/
def addBlock (st : EditorState) (t : BlockType) (gid : Option Nat) : EditorState :=
  { st with
    blocks := st.blocks ++
      [{ id := st.idCounter, type := t, content := getDefaultContent t,
         groupId := gid, selected := false, order := some (st.blocks.length : Int) }],
    idCounter := st.idCounter + 1 }

/-! ## Variable store and substitution (src/script.js lines 683-772)

`substituteVariables` builds `new RegExp("\\{\\{" + key + "\\}\\}", 'g')` from
the raw key, unescaped.  We model the fragment of JS regexes that such
patterns can denote when the key consists of ordinary characters plus `.`:
a sequence of tokens, each either a literal character or a `.` wildcard.
Keys containing any other regex metacharacter are outside the modelled
fragment and their substitution step is skipped (no claim depends on them).
Replacement strings are inserted literally; `$`-escapes of
`String.prototype.replace` are not modelled (no claim-relevant value
contains `'$'`). -/

/-- One token of the modelled regex fragment. -/
inductive RTok
  | lit (c : Char)
  | anyc
deriving DecidableEq

/-- Regex metacharacters whose unescaped occurrence changes matching. -/
def regexSpecialChars : List Char :=
  ['\\', '^', '$', '.', '|', '?', '*', '+', '(', ')', '[', ']', '{', '}']

/-- Compile a raw key into regex tokens: `.` becomes a wildcard, ordinary
characters become literals, other metacharacters leave the modelled
fragment (`none`). -/
def compileKeyPattern (key : Str) : Option (List RTok) :=
  key.foldr
    (fun c acc =>
      match acc with
      | none => none
      | some ts =>
        if c = '.' then some (.anyc :: ts)
        else if c ∈ regexSpecialChars then none
        else some (.lit c :: ts))
    (some [])

/-- The full pattern `\{\{key\}\}`. -/
def bracePattern (body : List RTok) : List RTok :=
  [.lit '{', .lit '{'] ++ body ++ [.lit '}', .lit '}']

/-- Does a token match a character?  The `.` wildcard excludes line
terminators. -/
def tokMatches : RTok → Char → Bool
  | .lit c, d => c == d
  | .anyc, d => !(d == '\n' || d == '\r')

/-- Match a pattern against a prefix of `s`, returning matched prefix and rest. -/
def matchTake : List RTok → Str → Option (Str × Str)
  | [], s => some ([], s)
  | _ :: _, [] => none
  | t :: ts, c :: cs =>
    if tokMatches t c then (matchTake ts cs).map (fun p => (c :: p.1, p.2)) else none

/-- Global regex replace, fuelled (each successful match on our patterns
consumes at least one character, so `s.length + 1` fuel always suffices). -/
def replAllF : Nat → List RTok → Str → Str → Str
  | 0, _, _, s => s
  | _ + 1, _, _, [] => []
  | fuel + 1, pat, repl, c :: cs =>
    match matchTake pat (c :: cs) with
    | some (_, rest) => repl ++ replAllF fuel pat repl rest
    | none => c :: replAllF fuel pat repl cs

/-- `str.replace(regex, repl)` with a `g` flag, for the modelled fragment. -/
def replAll (pat : List RTok) (repl : Str) (s : Str) : Str :=
  replAllF (s.length + 1) pat repl s

/-- `result.replace(/\{\{|\}\}/g, '')` (src/script.js line 763): delete every
occurrence of `{{` or `}}`, scanning left to right. -/
def stripBraces : Str → Str
  | '{' :: '{' :: r => stripBraces r
  | '}' :: '}' :: r => stripBraces r
  | c :: r => c :: stripBraces r
  | [] => []

/-- The character class `/^[\d\s+\-*/().]+$/` of src/script.js line 764. -/
def isArithChar (c : Char) : Bool :=
  c.isDigit || isWsChar c || c ∈ ['+', '-', '*', '/', '(', ')', '.']

/-! Arithmetic evaluation: the source calls JS `eval` on a string that matched
the arithmetic character class.  We model it with a recursive-descent
evaluator over exact fractions (`JsNum`, kept unreduced so that every step
is kernel-computable Nat/Int arithmetic).  JS computes in binary doubles;
on every claim-relevant input the double result is exact and agrees with
the exact fraction.  Division by zero yields a zero denominator, printed as
JS prints it (`Infinity`/`-Infinity`/`NaN`). -/

/-- An exact (unreduced) fraction `num / den`. -/
structure JsNum where
  num : Int
  den : Int
deriving DecidableEq

/-- Fraction addition. -/
def jsAdd (a b : JsNum) : JsNum := ⟨a.num * b.den + b.num * a.den, a.den * b.den⟩

/-- Fraction subtraction. -/
def jsSub (a b : JsNum) : JsNum := ⟨a.num * b.den - b.num * a.den, a.den * b.den⟩

/-- Fraction multiplication. -/
def jsMul (a b : JsNum) : JsNum := ⟨a.num * b.num, a.den * b.den⟩

/-- Fraction division. -/
def jsDiv (a b : JsNum) : JsNum := ⟨a.num * b.den, a.den * b.num⟩

/-- Fraction negation. -/
def jsNeg (a : JsNum) : JsNum := ⟨-a.num, a.den⟩

/-- Skip `\s` whitespace. -/
def skipWs (s : Str) : Str := s.dropWhile isWsChar

/-- Read a digit string as a natural number. -/
def digitsToNat (ds : Str) : Nat :=
  ds.foldl (fun a c => a * 10 + (c.toNat - '0'.toNat)) 0

/-- Parse a JS numeric literal `digits [. digits] | . digits`, as a fraction
over a power of ten. -/
def parseNum (s : Str) : Option (JsNum × Str) :=
  let intPart := s.takeWhile Char.isDigit
  let s₁ := s.dropWhile Char.isDigit
  match s₁ with
  | '.' :: s₂ =>
    let fracPart := s₂.takeWhile Char.isDigit
    let s₃ := s₂.dropWhile Char.isDigit
    if intPart.isEmpty && fracPart.isEmpty then none
    else some (⟨(digitsToNat (intPart ++ fracPart) : Nat), ((10 : Nat) ^ fracPart.length : Nat)⟩, s₃)
  | _ =>
    if intPart.isEmpty then none
    else some (⟨(digitsToNat intPart : Nat), 1⟩, s₁)

mutual

/-- Additive level: `term (('+'|'-') term)*`. -/
def parseE : Nat → Str → Option (JsNum × Str)
  | 0, _ => none
  | fuel + 1, s =>
    match parseT fuel s with
    | some (v, r) => parseELoop fuel v r
    | none => none

/-- Fold further `+`/`-` terms onto `acc`. -/
def parseELoop : Nat → JsNum → Str → Option (JsNum × Str)
  | 0, _, _ => none
  | fuel + 1, acc, s =>
    match skipWs s with
    | '+' :: r =>
      match parseT fuel r with
      | some (v, r₂) => parseELoop fuel (jsAdd acc v) r₂
      | none => none
    | '-' :: r =>
      match parseT fuel r with
      | some (v, r₂) => parseELoop fuel (jsSub acc v) r₂
      | none => none
    | _ => some (acc, s)

/-- Multiplicative level: `factor (('*'|'/') factor)*`. -/
def parseT : Nat → Str → Option (JsNum × Str)
  | 0, _ => none
  | fuel + 1, s =>
    match parseF fuel s with
    | some (v, r) => parseTLoop fuel v r
    | none => none

/-- Fold further `*`/`/` factors onto `acc`. -/
def parseTLoop : Nat → JsNum → Str → Option (JsNum × Str)
  | 0, _, _ => none
  | fuel + 1, acc, s =>
    match skipWs s with
    | '*' :: r =>
      match parseF fuel r with
      | some (v, r₂) => parseTLoop fuel (jsMul acc v) r₂
      | none => none
    | '/' :: r =>
      match parseF fuel r with
      | some (v, r₂) => parseTLoop fuel (jsDiv acc v) r₂
      | none => none
    | _ => some (acc, s)

/-- Factor: parenthesised expression, unary sign, or numeric literal. -/
def parseF : Nat → Str → Option (JsNum × Str)
  | 0, _ => none
  | fuel + 1, s =>
    match skipWs s with
    | '(' :: r =>
      match parseE fuel r with
      | some (v, r₂) =>
        match skipWs r₂ with
        | ')' :: r₃ => some (v, r₃)
        | _ => none
      | none => none
    | '-' :: r => (parseF fuel r).map (fun p => (jsNeg p.1, p.2))
    | '+' :: r => parseF fuel r
    | s₄ => parseNum s₄

end

/-- Evaluate a whole arithmetic string; `none` models a thrown eval error. -/
def arithEval (s : Str) : Option JsNum :=
  match parseE (4 * s.length + 8) s with
  | some (v, rest) => if (skipWs rest).isEmpty then some v else none
  | none => none

/-- Format a fraction the way JS `Number.prototype.toString` formats the
(exact) result: integers in decimal, finite decimal fractions with the
minimal number of fraction digits, division by zero as
`Infinity`/`-Infinity`/`NaN`.  Values whose decimal expansion is infinite
are not modelled (`NaN` placeholder; unreachable in the claims). -/
def ratToStr (q : JsNum) : Str :=
  let n : Int := if q.den < 0 then -q.num else q.num
  let d : Nat := q.den.natAbs
  if d = 0 then
    if 0 < n then S "Infinity" else if n < 0 then S "-Infinity" else S "NaN"
  else if n.natAbs % d = 0 then
    (if n < 0 then ['-'] else []) ++ natToStr (n.natAbs / d)
  else
    match (List.range 40).find? (fun k => decide ((n.natAbs * 10 ^ k) % d = 0)) with
    | some k =>
      let scaled : Nat := (n.natAbs * 10 ^ k) / d
      let ds := natToStr scaled
      let padded := if ds.length < k + 1 then List.replicate (k + 1 - ds.length) '0' ++ ds else ds
      let intDigits := padded.take (padded.length - k)
      let fracDigits := padded.drop (padded.length - k)
      (if n < 0 then ['-'] else []) ++ intDigits ++ '.' :: fracDigits
    | none => S "NaN"

/-- `evaluateExpression(expression)` (src/script.js lines 752-772). -/
def evaluateExpression (vars : List (Nat × VarEntry)) (expression : Str) : Str :=
  let result := vars.foldl
    (fun r p =>
      if !p.2.key.isEmpty && !strIncludes p.2.value (S "\x7b\x7b") then
        match compileKeyPattern p.2.key with
        | some pat => replAll (bracePattern pat) p.2.value r
        | none => r
      else r)
    expression
  let mathExpression := stripBraces result
  if !mathExpression.isEmpty && mathExpression.all isArithChar then
    match arithEval mathExpression with
    | some q => ratToStr q
    | none => result
  else result

/-- `substituteVariables(text)` (src/script.js lines 735-750). -/
def substituteVariables (vars : List (Nat × VarEntry)) (text : Str) : Str :=
  vars.foldl
    (fun result p =>
      if !p.2.key.isEmpty then
        match compileKeyPattern p.2.key with
        | some pat =>
          let value :=
            if strIncludes p.2.value (S "\x7b\x7b") && strIncludes p.2.value (S "\x7d\x7d") then
              evaluateExpression vars p.2.value
            else p.2.value
          replAll (bracePattern pat) value result
        | none => result
      else result)
    text

/-- `addVariable(key, value)` (src/script.js lines 683-689). -/
def addVariable (st : EditorState) (key value : Str) : EditorState :=
  { st with
    vars := jsMapSet st.vars st.idCounter ⟨key, value⟩,
    idCounter := st.idCounter + 1 }

/-- `deleteVariable(variableId)` (src/script.js lines 728-733). -/
def deleteVariable (st : EditorState) (vid : Nat) : EditorState :=
  { st with vars := st.vars.filter (fun p => !(p.1 == vid)) }

/-! ## Ordering engine (src/script.js lines 358-560) -/

/-- A top-level item of `getAllOrderedItems`: a standalone block, or a group
tagged with its current member blocks. -/
inductive OItem
  | blk (b : Block)
  | grp (g : Group) (members : List Block)
deriving DecidableEq

/-- The numeric sort key pushed with each item (`block.order || 0`,
`group.order || 0`). -/
def itemOrder : OItem → Int
  | .blk b => b.order.getD 0
  | .grp g _ => g.order.getD 0

/-- Ungrouped blocks, tagged (src/script.js lines 466-472). -/
def ungroupedTags (st : EditorState) : List OItem :=
  (st.blocks.filter (fun b => b.groupId.isNone)).map .blk

/-- Groups with at least one current member, tagged (src/script.js lines 474-485). -/
def groupTags (st : EditorState) : List OItem :=
  st.groups.filterMap
    (fun p =>
      let ms := st.blocks.filter (fun b => decide (b.groupId = some p.1))
      if ms.isEmpty then none else some (.grp p.2 ms))

/-- `getAllOrderedItems()` (src/script.js lines 462-488): ungrouped blocks and
non-empty groups, stably sorted by their `order` key. -/
def getAllOrderedItems (st : EditorState) : List OItem :=
  List.insertionSort (fun a b => itemOrder a ≤ itemOrder b) (ungroupedTags st ++ groupTags st)

/-- Kind selector used by `moveItemUp`/`moveItemDown`. -/
inductive ItemKind
  | block
  | group
deriving DecidableEq

/-- The `findIndex` predicate of src/script.js lines 410-413 / 437-440. -/
def itemIs (kind : ItemKind) (iid : Nat) : OItem → Bool
  | .blk b => kind = .block && b.id = iid
  | .grp g _ => kind = .group && g.id = iid

/-- Used only for `List.getD` at indices that are proved (or known from the
source's control flow) to be in bounds. -/
def dummyItem : OItem := .blk ⟨0, .paragraph, .text [], none, false, none⟩

/-- Write `v` into the `order` field of the entity an item refers to
(the source mutates the shared object `item.item`). -/
def setItemOrder (st : EditorState) (it : OItem) (v : Int) : EditorState :=
  match it with
  | .blk b =>
    { st with blocks := st.blocks.map (fun x => if x.id = b.id then { x with order := some v } else x) }
  | .grp g _ =>
    { st with groups := st.groups.map (fun p => if p.1 = g.id then (p.1, { p.2 with order := some v }) else p) }

/-- `moveItemUp(itemType, itemId)` (src/script.js lines 408-433): swap the
`order` values of the item and its predecessor in the merged sequence.
`findIndex` yields `-1` when the item is absent, and `-1 > 0` is false,
so a missing or first item is a no-op. -/
def moveItemUp (st : EditorState) (kind : ItemKind) (iid : Nat) : EditorState :=
  let items := getAllOrderedItems st
  match items.findIdx? (itemIs kind iid) with
  | some i =>
    if 0 < i then
      let a := items.getD i dummyItem
      let b := items.getD (i - 1) dummyItem
      setItemOrder (setItemOrder st a (itemOrder b)) b (itemOrder a)
    else st
  | none => st

/-- `moveItemDown(itemType, itemId)` (src/script.js lines 435-460): swap with
the successor.  The guard is `index < allItems.length - 1`; when `findIndex`
returns `-1` and the sequence is non-empty, `-1 < length - 1` holds and the
source dereferences `allItems[-1].order`, throwing a `TypeError`
(modelled as `.error ()`; nothing is mutated before the throw). -/
def moveItemDown (st : EditorState) (kind : ItemKind) (iid : Nat) :
    Except Unit EditorState :=
  let items := getAllOrderedItems st
  match items.findIdx? (itemIs kind iid) with
  | some i =>
    if i + 1 < items.length then
      let a := items.getD i dummyItem
      let b := items.getD (i + 1) dummyItem
      .ok (setItemOrder (setItemOrder st a (itemOrder b)) b (itemOrder a))
    else .ok st
  | none => if 1 ≤ items.length then .error () else .ok st

/-- Write a raw (possibly undefined) order value into a block by id. -/
def setBlockRawOrder (st : EditorState) (bid : Nat) (v : Option Int) : EditorState :=
  { st with blocks := st.blocks.map (fun x => if x.id = bid then { x with order := v } else x) }

/-- Members of a group, sorted by `(a.order || 0) - (b.order || 0)`. -/
def sortedGroupBlocks (st : EditorState) (gid : Nat) : List Block :=
  List.insertionSort (fun a b => a.order.getD 0 ≤ b.order.getD 0)
    (st.blocks.filter (fun b => decide (b.groupId = some gid)))

/-- Used for `List.getD` on block lists at in-bounds indices. -/
def dummyBlock : Block := ⟨0, .paragraph, .text [], none, false, none⟩

/-- `moveBlockUp(blockId)` (src/script.js lines 358-381).  A grouped block
swaps raw `order` values with its predecessor inside the sorted member list;
an ungrouped block goes through `moveItemUp`. -/
def moveBlockUp (st : EditorState) (bid : Nat) : EditorState :=
  match st.blocks.find? (fun b => b.id = bid) with
  | none => st
  | some b =>
    match b.groupId with
    | some gid =>
      let gbs := sortedGroupBlocks st gid
      match gbs.findIdx? (fun x => x.id = bid) with
      | some i =>
        if 0 < i then
          let x := gbs.getD i dummyBlock
          let y := gbs.getD (i - 1) dummyBlock
          setBlockRawOrder (setBlockRawOrder st x.id y.order) y.id x.order
        else st
      | none => st
    | none => moveItemUp st .block bid

/-- `moveBlockDown(blockId)` (src/script.js lines 383-406).  In the grouped
branch the block is always found in its member list, so the `-1` hazard of
`moveItemDown` cannot arise there; in the ungrouped branch the block is
always present in the merged sequence, so `moveItemDown` cannot throw
(the `.error` arm below is unreachable and returns the state unchanged). -/
def moveBlockDown (st : EditorState) (bid : Nat) : EditorState :=
  match st.blocks.find? (fun b => b.id = bid) with
  | none => st
  | some b =>
    match b.groupId with
    | some gid =>
      let gbs := sortedGroupBlocks st gid
      match gbs.findIdx? (fun x => x.id = bid) with
      | some i =>
        if i + 1 < gbs.length then
          let x := gbs.getD i dummyBlock
          let y := gbs.getD (i + 1) dummyBlock
          setBlockRawOrder (setBlockRawOrder st x.id y.order) y.id x.order
        else st
      | none => st
    | none =>
      match moveItemDown st .block bid with
      | .ok st2 => st2
      | .error _ => st

/-- `moveGroupUp(groupId)` (src/script.js lines 548-553). -/
def moveGroupUp (st : EditorState) (gid : Nat) : EditorState :=
  moveItemUp st .group gid

/-- `moveGroupDown(groupId)` (src/script.js lines 555-560): directly
delegates to `moveItemDown`, so it can throw (see `moveItemDown`). -/
def moveGroupDown (st : EditorState) (gid : Nat) : Except Unit EditorState :=
  moveItemDown st .group gid

/-- `moveGroupDown` as the state transition the user observes: an uncaught
exception leaves the state unchanged. -/
def moveGroupDownRun (st : EditorState) (gid : Nat) : EditorState :=
  match moveGroupDown st gid with
  | .ok st2 => st2
  | .error _ => st

/-- `deleteBlock(blockId)` (src/script.js lines 490-495). -/
def deleteBlock (st : EditorState) (bid : Nat) : EditorState :=
  { st with blocks := st.blocks.filter (fun b => !(b.id == bid)) }

/-- `handleBlockSelection` state change (src/script.js lines 638-645). -/
def setSelected (st : EditorState) (bid : Nat) (flag : Bool) : EditorState :=
  { st with blocks := st.blocks.map (fun b => if b.id = bid then { b with selected := flag } else b) }

/-- Reassign the selected ungrouped blocks to group `gid`, numbering them
`0, 1, 2, …` in array order (the order of the `filter` in the source). -/
def assignGroup (gid : Nat) : Nat → List Block → List Block
  | _, [] => []
  | k, b :: bs =>
    if b.selected && b.groupId.isNone then
      { b with groupId := some gid, selected := false, order := some (k : Int) } ::
        assignGroup gid (k + 1) bs
    else b :: assignGroup gid k bs

/-- `Math.min(...)` over a list that the caller knows is non-empty
(`Math.min()` of no arguments is `Infinity`; unreachable here). -/
def listMinI : List Int → Int
  | [] => 0
  | x :: xs => xs.foldl min x

/-- `groupSelectedBlocks()` (src/script.js lines 497-525).  The boolean result
records whether the "Please select at least 2 blocks to group" alert was
shown.  The group id uses the pre-increment counter, the display name the
post-increment one. -/
def groupSelectedBlocks (st : EditorState) : EditorState × Bool :=
  let selectedBlocks := st.blocks.filter (fun b => b.selected && b.groupId.isNone)
  if selectedBlocks.length < 2 then (st, true)
  else
    let gid := st.groupCounter
    let minOrder := listMinI (selectedBlocks.map (fun b => b.order.getD 0))
    let g : Group := ⟨gid, S "Group " ++ natToStr (st.groupCounter + 1), some minOrder⟩
    ({ st with
        blocks := assignGroup gid 0 st.blocks,
        groups := jsMapSet st.groups gid g,
        groupCounter := st.groupCounter + 1 }, false)

/-- `ungroupBlocks(groupId)` (src/script.js lines 527-538). -/
def ungroupBlocks (st : EditorState) (gid : Nat) : EditorState :=
  { st with
    blocks := st.blocks.map (fun b => if b.groupId = some gid then { b with groupId := none } else b),
    groups := st.groups.filter (fun p => !(p.1 == gid)) }

/-- `deleteGroup(groupId)` (src/script.js lines 540-546). -/
def deleteGroup (st : EditorState) (gid : Nat) : EditorState :=
  { st with
    blocks := st.blocks.filter (fun b => !decide (b.groupId = some gid)),
    groups := st.groups.filter (fun p => !(p.1 == gid)) }

/-! ## Table mutators (src/script.js lines 562-610) -/

/-- The index clamping of `array.splice(start, …)`: a negative start counts
from the end, clamped at 0. -/
def clampIdx (i : Int) (n : Nat) : Int :=
  if i < 0 then (if (n : Int) + i < 0 then 0 else (n : Int) + i) else i

/-- `array.splice(i, 1)` of JS: a negative index counts from the end (clamped
at 0); an index at or past the end removes nothing. -/
def spliceRemove1 {α : Type} (l : List α) (i : Int) : List α :=
  if clampIdx i l.length < (l.length : Int) then l.eraseIdx (clampIdx i l.length).toNat else l

/-- `addTableRow` on the table payload: append a row of empty cells matching
the current column count. -/
def addRowT (t : TableContent) : TableContent :=
  { t with rows := t.rows ++ [List.replicate t.headers.length []] }

/-- `addTableColumn` on the table payload. -/
def addColT (t : TableContent) : TableContent :=
  { headers := t.headers ++ [S "New Column"], rows := t.rows.map (fun r => r ++ [[]]) }

/-- `deleteTableRow` on the table payload: guarded by `rows.length > 1`. -/
def delRowT (t : TableContent) (i : Int) : TableContent :=
  if 1 < t.rows.length then { t with rows := spliceRemove1 t.rows i } else t

/-- `deleteTableColumn` on the table payload: guarded by `headers.length > 1`;
headers and every row are spliced at the same index. -/
def delColT (t : TableContent) (i : Int) : TableContent :=
  if 1 < t.headers.length then
    { headers := spliceRemove1 t.headers i, rows := t.rows.map (fun r => spliceRemove1 r i) }
  else t

/-- `this.blocks.find(b => b.id === blockId)` followed by an in-place mutation
of the found block: rewrite the first block with that id. -/
def updateFirstBlock (bid : Nat) (f : Block → Block) : List Block → List Block
  | [] => []
  | b :: bs => if b.id = bid then f b :: bs else b :: updateFirstBlock bid f bs

/-- Apply `f` to the table payload of a block if it is a table block
(`if (block && block.type === 'table')`). -/
def onTable (f : TableContent → TableContent) (b : Block) : Block :=
  if b.type = .table then
    match b.content with
    | .table t => { b with content := .table (f t) }
    | .text s => { b with content := .text s }
  else b

/-- `addTableRow(blockId)` (src/script.js lines 562-571). -/
def addTableRow (st : EditorState) (bid : Nat) : EditorState :=
  { st with blocks := updateFirstBlock bid (onTable addRowT) st.blocks }

/-- `addTableColumn(blockId)` (src/script.js lines 573-582). -/
def addTableColumn (st : EditorState) (bid : Nat) : EditorState :=
  { st with blocks := updateFirstBlock bid (onTable addColT) st.blocks }

/-- `deleteTableRow(blockId, rowIndex)` (src/script.js lines 584-592). -/
def deleteTableRow (st : EditorState) (bid : Nat) (i : Int) : EditorState :=
  { st with blocks := updateFirstBlock bid (onTable (fun t => delRowT t i)) st.blocks }

/-- `deleteTableColumn(blockId, colIndex)` (src/script.js lines 594-603). -/
def deleteTableColumn (st : EditorState) (bid : Nat) (i : Int) : EditorState :=
  { st with blocks := updateFirstBlock bid (onTable (fun t => delColT t i)) st.blocks }

/-! ## Markdown codec (src/script.js lines 774-934) -/

/-- `generateTableMarkdown(tableData)` (src/script.js lines 814-836). -/
def generateTableMarkdown (t : TableContent) : Str :=
  '|' :: (t.headers.flatMap (fun h => ' ' :: h ++ [' ', '|'])) ++
    '\n' :: '|' :: (t.headers.flatMap (fun _ => S " --- |")) ++
    '\n' :: (t.rows.flatMap (fun r => '|' :: (r.flatMap (fun c => ' ' :: c ++ [' ', '|'])) ++ ['\n']))

/-- The raw markdown text of a block, before variable substitution
(the source branches on `type === 'table'`; on the coherent states of this
development the content shape always matches the type). -/
def rawMarkdown (b : Block) : Str :=
  match b.content with
  | .table t => generateTableMarkdown t
  | .text s => s

/-- What one top-level item contributes to `generateMarkdown`'s
accumulator: each (member) block's substituted content plus `"\n\n"`. -/
def emitItem (vars : List (Nat × VarEntry)) : OItem → Str
  | .blk b => substituteVariables vars (rawMarkdown b) ++ ['\n', '\n']
  | .grp _ ms =>
    (List.insertionSort (fun a b => a.order.getD 0 ≤ b.order.getD 0) ms).flatMap
      (fun b => substituteVariables vars (rawMarkdown b) ++ ['\n', '\n'])

/-- `generateMarkdown()` (src/script.js lines 774-812): walk the ordered
items, accumulate substituted contents separated by blank lines, and trim. -/
def generateMarkdown (st : EditorState) : Str :=
  trimS ((getAllOrderedItems st).flatMap (emitItem st.vars))

/-- Import parser state: finished `{type, content}` records plus the open one. -/
abbrev ImpState := List (BlockType × Str) × Option (BlockType × Str)

/-- `finishCurrentBlock` of the parsing loop, at the record level. -/
def flushPB (st : ImpState) : List (BlockType × Str) := st.1 ++ st.2.toList

/-- Is the line a list item (`- ` or `* `)? -/
def isListLine (l : Str) : Bool := startsWithS l (S "- ") || startsWithS l (S "* ")

/-- One iteration of the `lines.forEach` classifier of `importMarkdown`
(src/script.js lines 891-921). -/
def importLineStep (st : ImpState) (line : Str) : ImpState :=
  if startsWithS line (S "#") then (flushPB st, some (.heading, line))
  else if startsWithS line (S "```") then
    match st.2 with
    | some (.code, c) => (st.1 ++ [(.code, c ++ '\n' :: line)], none)
    | _ => (flushPB st, some (.code, line))
  else if isListLine line then
    match st.2 with
    | some (.list, c) => (st.1, some (.list, c ++ '\n' :: line))
    | _ => (flushPB st, some (.list, line))
  else if !(trimS line).isEmpty then
    match st.2 with
    | some (.paragraph, c) => (st.1, some (.paragraph, c ++ '\n' :: line))
    | some (.code, c) => (st.1, some (.code, c ++ '\n' :: line))
    | some (.list, c) => (st.1, some (.list, c ++ '\n' :: line))
    | _ => (flushPB st, some (.paragraph, line))
  else st

/-- The `{type, content}` records produced by parsing a markdown text:
split into lines, classify, flush the final open block. -/
def importedRaw (text : Str) : List (BlockType × Str) :=
  flushPB ((splitNl text).foldl importLineStep ([], none))

/-- Realise parsed records as blocks: `finishCurrentBlock` (src/script.js
lines 929-934) mints a fresh id and pushes; `order`, `groupId` and
`selected` are never assigned (undefined, i.e. `none`/`false`). -/
def buildImported (n : Nat) : List (BlockType × Str) → List Block
  | [] => []
  | p :: ps =>
    { id := n, type := p.1, content := .text p.2, groupId := none,
      selected := false, order := none } :: buildImported (n + 1) ps

/-- `importMarkdown(markdown)` (src/script.js lines 886-927): the old block
list is discarded (`this.blocks = []`) and replaced by the parsed blocks. -/
def importMarkdown (st : EditorState) (text : Str) : EditorState :=
  { st with
    blocks := buildImported st.idCounter (importedRaw text),
    idCounter := st.idCounter + (importedRaw text).length }

/-- The `order`/`selected` defaulting that `loadFromStorage` applies to
blocks of a loaded snapshot (src/script.js lines 957-964): a missing order
becomes the positional index. -/
def normalizeLoadedGo (i : Nat) : List Block → List Block
  | [] => []
  | b :: bs =>
    (if b.order = none then { b with order := some (i : Int) } else b) ::
      normalizeLoadedGo (i + 1) bs

/-- The whole normalisation pass, numbering from 0. -/
def normalizeLoadedBlocks (bs : List Block) : List Block := normalizeLoadedGo 0 bs

/-! ## Derived definitions used to state the claims -/

/-- The block id carried by a block item. -/
def itemBlockId : OItem → Option Nat
  | .blk b => some b.id
  | .grp _ _ => none

/-- The group id carried by a group item. -/
def itemGroupId : OItem → Option Nat
  | .grp g _ => some g.id
  | .blk _ => none

/-- The number of top-level items (ungrouped blocks plus non-empty groups). -/
def topLevelCount (st : EditorState) : Nat := (getAllOrderedItems st).length

/-- State-level table-mutator call with its argument(s). -/
inductive TableCall
  | aRow (bid : Nat)
  | aCol (bid : Nat)
  | dRow (bid : Nat) (i : Int)
  | dCol (bid : Nat) (i : Int)

/-- Apply one table-mutator call. -/
def applyTableCall (st : EditorState) : TableCall → EditorState
  | .aRow bid => addTableRow st bid
  | .aCol bid => addTableColumn st bid
  | .dRow bid i => deleteTableRow st bid i
  | .dCol bid i => deleteTableColumn st bid i

/-- Apply a finite sequence of table-mutator calls. -/
def applyTableCalls (st : EditorState) (ops : List TableCall) : EditorState :=
  ops.foldl applyTableCall st

/-- The table invariant of the spec: at least one column, at least one row,
and every row as long as the header row. -/
def TInv (t : TableContent) : Prop :=
  1 ≤ t.headers.length ∧ 1 ≤ t.rows.length ∧ ∀ r ∈ t.rows, r.length = t.headers.length

instance (t : TableContent) : Decidable (TInv t) := by
  unfold TInv
  exact instDecidableAnd

/-- The table invariant, for whatever content a block holds (text content
is trivially fine). -/
def blockTInv (b : Block) : Prop :=
  ∀ t, b.content = .table t → TInv t

instance (b : Block) : Decidable (blockTInv b) :=
  match hb : b.content with
  | .table t =>
    decidable_of_iff (TInv t)
      (by
        constructor
        · intro h t₂ ht₂
          rw [hb] at ht₂
          cases ht₂
          exact h
        · intro h
          exact h t hb)
  | .text s =>
    isTrue (by
      intro t ht
      rw [hb] at ht
      cases ht)

/-- Every table payload in the state satisfies the table invariant. -/
def TInvState (st : EditorState) : Prop :=
  ∀ b ∈ st.blocks, blockTInv b

instance (st : EditorState) : Decidable (TInvState st) := by
  unfold TInvState
  exact List.decidableBAll _ _

/-- One user-level mutation step, with arbitrary arguments: the create,
delete, select, move, group and ungroup operations of the editor
(`moveGroupDown` as the user observes it: a thrown exception leaves the
state unchanged). -/
inductive Step : EditorState → EditorState → Prop
  | addBlockS (st : EditorState) (t : BlockType) : Step st (addBlock st t none)
  | deleteBlockS (st : EditorState) (bid : Nat) : Step st (deleteBlock st bid)
  | setSelectedS (st : EditorState) (bid : Nat) (flag : Bool) : Step st (setSelected st bid flag)
  | moveBlockUpS (st : EditorState) (bid : Nat) : Step st (moveBlockUp st bid)
  | moveBlockDownS (st : EditorState) (bid : Nat) : Step st (moveBlockDown st bid)
  | moveGroupUpS (st : EditorState) (gid : Nat) : Step st (moveGroupUp st gid)
  | moveGroupDownS (st : EditorState) (gid : Nat) : Step st (moveGroupDownRun st gid)
  | groupSelectedS (st : EditorState) : Step st (groupSelectedBlocks st).1
  | ungroupS (st : EditorState) (gid : Nat) : Step st (ungroupBlocks st gid)
  | deleteGroupS (st : EditorState) (gid : Nat) : Step st (deleteGroup st gid)

/-- States reachable from a fresh editor by any sequence of steps. -/
inductive Reachable : EditorState → Prop
  | init : Reachable initState
  | step {s s₂ : EditorState} : Reachable s → Step s s₂ → Reachable s₂

/-- The structural invariant maintained by every operation: block ids are
distinct and below the id counter, group keys are distinct and below the
group counter, and each group record's `id` equals its map key. -/
def Inv (st : EditorState) : Prop :=
  (st.blocks.map Block.id).Nodup ∧
  (∀ b ∈ st.blocks, b.id < st.idCounter) ∧
  (st.groups.map Prod.fst).Nodup ∧
  (∀ p ∈ st.groups, p.1 < st.groupCounter) ∧
  (∀ p ∈ st.groups, (p.2).id = p.1)

/-! Canonical-content predicates for the markdown round-trip (claim C3).
They characterise block texts that the line classifier of `importMarkdown`
parses back unchanged. -/

/-- A line that neither starts a heading, a fence, or a list item, nor is
blank: the classifier treats it as paragraph text / continuation. -/
def isPlainLine (l : Str) : Bool :=
  !startsWithS l (S "#") && !startsWithS l (S "```") && !isListLine l && !(trimS l).isEmpty

/-- Canonical content for a block type: text the classifier will reproduce.
Heading: one `#` line.  Paragraph: plain lines.  List: `- `/`* ` lines.
Code: an opening fence, at least one more line, plain interior lines, and a
closing fence.  Tables are never canonical (they do not round-trip). -/
def canonicalPB : BlockType × Str → Bool
  | (.heading, c) => startsWithS c (S "#") && !c.contains '\n'
  | (.paragraph, c) => (splitNl c).all isPlainLine
  | (.list, c) => (splitNl c).all isListLine
  | (.code, c) =>
    match splitNl c with
    | [] => false
    | f :: rest =>
      startsWithS f (S "```") && !rest.isEmpty && rest.dropLast.all isPlainLine &&
        startsWithS (rest.getLastD []) (S "```")
  | (.table, _) => false

/-- May a block of type `t` start while the classifier still holds an open
block of type `prev`?  A paragraph merges into an open paragraph or list,
and a list item merges into an open list; everything else starts fresh. -/
def canStart : Option BlockType → BlockType → Bool
  | some .paragraph, .paragraph => false
  | some .list, .paragraph => false
  | some .list, .list => false
  | _, _ => true

/-- The open block left behind after the classifier has consumed a block of
type `t`: code blocks close themselves, the rest stay open. -/
def residualAfter (t : BlockType) : Option BlockType :=
  if t = .code then none else some t

/-- Adjacent-block condition over a whole emitted sequence. -/
def chainOk : Option BlockType → List (BlockType × Str) → Bool
  | _, [] => true
  | prev, p :: ps => canStart prev p.1 && chainOk (residualAfter p.1) ps

/-- The `(type, markdown text)` pairs one ordered item contributes to the
generated document. -/
def itemPairs : OItem → List (BlockType × Str)
  | .blk b => [(b.type, rawMarkdown b)]
  | .grp _ ms =>
    (List.insertionSort (fun a b => a.order.getD 0 ≤ b.order.getD 0) ms).map
      (fun b => (b.type, rawMarkdown b))

/-- The `(type, markdown text)` pairs that `generateMarkdown` emits, in
emission order (standalone blocks, and group members sorted by their
group-scoped order). -/
def emittedPairs (st : EditorState) : List (BlockType × Str) :=
  (getAllOrderedItems st).flatMap itemPairs

/-- Does the text start with a non-whitespace character? -/
def headNonWs : Str → Bool
  | [] => false
  | c :: _ => !isWsChar c

/-- The document-edge condition needed because `generateMarkdown` trims the
final text: the first emitted character and the last emitted character are
not whitespace. -/
def edgeOk (cs : List Str) : Bool :=
  cs.isEmpty || (headNonWs (cs.headD []) && headNonWs (cs.getLastD []).reverse)

/-- Observe a block as a `(type, text)` pair (tables observed as empty text;
the claim only concerns text blocks). -/
def blockPair (b : Block) : BlockType × Str :=
  (b.type, match b.content with | .text s => s | .table _ => [])

/-- `c₁ ++ "\n\n" ++ c₂ ++ "\n\n" ++ … ++ cₙ`: the markdown body after the
final trim. -/
def midJoin : List Str → Str
  | [] => []
  | [c] => c
  | c :: cs => c ++ '\n' :: '\n' :: midJoin cs

/-- The line sequence of `midJoin cs`: the lines of each text with one blank
separator line between consecutive texts. -/
def linesForCs : List Str → List Str
  | [] => []
  | [c] => splitNl c
  | c :: cs => splitNl c ++ ([] :: linesForCs cs)

/-- `content += '\n' + line` iterated over a list of lines. -/
def appendCont (c : Str) (ls : List Str) : Str :=
  ls.foldl (fun a l => a ++ '\n' :: l) c

/-- Does the classifier append this line to an open block of type `τ` rather
than closing it? -/
def contLine (τ : BlockType) (l : Str) : Bool :=
  match τ with
  | .paragraph => isPlainLine l
  | .code => isPlainLine l
  | .list => isListLine l
  | _ => false

/-- The open block after the classifier has consumed `bs` starting from open
block `cur`. -/
def lastResidual (cur : Option (BlockType × Str)) (bs : List (BlockType × Str)) :
    Option (BlockType × Str) :=
  bs.foldl (fun _ p => if p.1 = .code then none else some p) cur

/-- Number the blocks of a selection `0, 1, 2, …` into group `gid`, clearing
the selection: the effect `groupSelectedBlocks` has on the selected blocks. -/
def numberFrom (gid : Nat) : Nat → List Block → List Block
  | _, [] => []
  | k, b :: bs =>
    { b with groupId := some gid, selected := false, order := some (k : Int) } ::
      numberFrom gid (k + 1) bs

/-! ## Concrete example states used by witnesses and counterexamples -/

/-- The three variables of the worked substitution example, in insertion
order. -/
def exampleVars : List (Nat × VarEntry) :=
  [(0, ⟨S "price", S "1000"⟩), (1, ⟨S "tax", S "0.2"⟩), (2, ⟨S "total", S "{{price}}*{{tax}}"⟩)]

/-- A document with a single ungrouped block. -/
def stOneBlock : EditorState := addBlock initState .heading none

/-- A document with a heading and a paragraph block. -/
def stTwoBlocks : EditorState := addBlock stOneBlock .paragraph none

/-- Two default paragraph blocks created by the editor. -/
def stTwoParas : EditorState := addBlock (addBlock initState .paragraph none) .paragraph none

/-- Three heading blocks. -/
def stWithGroupPre : EditorState :=
  addBlock (addBlock (addBlock initState .heading none) .heading none) .heading none

/-- Three heading blocks, the first two selected and grouped: a reachable
state whose top-level item count (2) differs from its block count (3). -/
def stWithGroup : EditorState :=
  (groupSelectedBlocks (setSelected (setSelected stWithGroupPre 0 true) 1 true)).1

/-- A state with one default table block. -/
def stTable : EditorState := addBlock initState .table none

/-- A small canonical document: heading, paragraph, list, code. -/
def stCanonDoc : EditorState :=
  { initState with
    blocks :=
      [⟨0, .heading, .text (S "# Title"), none, false, some 0⟩,
       ⟨1, .paragraph, .text (S "hello world"), none, false, some 1⟩,
       ⟨2, .list, .text (S "- a\n- b"), none, false, some 2⟩,
       ⟨3, .code, .text (S "```\nx = 1\n```"), none, false, some 3⟩],
    idCounter := 4 }

/-! ## Supporting lemmas -/

theorem splitNl_cons_newline (r : Str) : splitNl ('\n' :: r) = [] :: splitNl r := by
  simp [splitNl]

theorem splitNl_cons_of_ne (c : Char) (r : Str) (h : ¬c = '\n') :
    splitNl (c :: r) =
      match splitNl r with
      | [] => [[c]]
      | l :: ls => (c :: l) :: ls := by
  simp [splitNl, h]

theorem splitNl_ne_nil (s : Str) : splitNl s ≠ [] := by
  cases s with
  | nil => simp [splitNl]
  | cons c r =>
    by_cases hc : c = '\n'
    · subst hc; simp [splitNl_cons_newline]
    · rw [splitNl_cons_of_ne c r hc]
      cases h : splitNl r <;> simp

theorem splitNl_cons_of_ne_cons (c : Char) (r : Str) (h : ¬c = '\n') (l : Str)
    (ls : List Str) (hr : splitNl r = l :: ls) : splitNl (c :: r) = (c :: l) :: ls := by
  rw [splitNl_cons_of_ne c r h, hr]

theorem splitNl_append_newline (s t : Str) :
    splitNl (s ++ '\n' :: t) = splitNl s ++ splitNl t := by
  induction s with
  | nil => simp [splitNl, splitNl_cons_newline]
  | cons c r ih =>
    by_cases hc : c = '\n'
    · subst hc
      rw [List.cons_append, splitNl_cons_newline, splitNl_cons_newline, ih, List.cons_append]
    · cases hr : splitNl r with
      | nil => exact absurd hr (splitNl_ne_nil r)
      | cons l ls =>
        have hrt : splitNl (r ++ '\n' :: t) = l :: (ls ++ splitNl t) := by
          rw [ih, hr, List.cons_append]
        rw [List.cons_append, splitNl_cons_of_ne_cons c _ hc l (ls ++ splitNl t) hrt,
          splitNl_cons_of_ne_cons c r hc l ls hr, List.cons_append]

theorem joinNl_cons_cons (l₁ l₂ : Str) (ls : List Str) :
    joinNl (l₁ :: l₂ :: ls) = l₁ ++ '\n' :: joinNl (l₂ :: ls) := rfl

theorem joinNl_splitNl (s : Str) : joinNl (splitNl s) = s := by
  induction s with
  | nil => simp [splitNl, joinNl]
  | cons c r ih =>
    by_cases hc : c = '\n'
    · subst hc
      rw [splitNl_cons_newline]
      cases hr : splitNl r with
      | nil => exact absurd hr (splitNl_ne_nil r)
      | cons l ls =>
        rw [hr] at ih
        rw [joinNl_cons_cons, ih, List.nil_append]
    · cases hr : splitNl r with
      | nil => exact absurd hr (splitNl_ne_nil r)
      | cons l ls =>
        rw [hr] at ih
        rw [splitNl_cons_of_ne_cons c r hc l ls hr]
        cases ls with
        | nil => simp_all [joinNl]
        | cons l₂ ls₂ =>
          rw [joinNl_cons_cons] at ih ⊢
          rw [List.cons_append, ih]

theorem splitNl_of_no_newline (s : Str) (h : '\n' ∉ s) : splitNl s = [s] := by
  induction s with
  | nil => simp [splitNl]
  | cons c r ih =>
    have hc : c ≠ '\n' := fun hc => h (hc ▸ List.mem_cons_self c r)
    have hr : '\n' ∉ r := fun hr => h (List.mem_cons_of_mem c hr)
    rw [splitNl_cons_of_ne_cons c r hc r [] (ih hr)]

/-! ## Claim theorems -/

/-- C7: with variables price="1000", tax="0.2", total="{{price}}*{{tax}}" in
insertion order, substituting into "Total: {{total}}" yields "Total: 200";
evaluateExpression resolves the expression to "1000*0.2", which is purely
arithmetic and evaluates to "200". -/
theorem C7_variable_substitution_example :
    substituteVariables exampleVars (S "Total: {{total}}") = S "Total: 200" ∧
    evaluateExpression exampleVars (S "{{price}}*{{tax}}") = S "200" ∧
    stripBraces (S "1000*0.2") = S "1000*0.2" ∧
    (S "1000*0.2").all isArithChar = true ∧
    (arithEval (S "1000*0.2")).map ratToStr = some (S "200") :=
  ⟨rfl, rfl, rfl, rfl, rfl⟩

/-- C9: the substitution regex is built from the raw key, so a key containing
the regex metacharacter `.` does not match only literal occurrences of
`{{key}}`: with the single variable `a.b = "V"`, the text `{{axb}}` — which
does not contain the literal substring `{{a.b}}` — is rewritten to `V`. -/
theorem C9_unescaped_key_replaces_nonliteral :
    substituteVariables [(0, ⟨S "a.b", S "V"⟩)] (S "{{axb}}") = S "V" ∧
    strIncludes (S "{{axb}}") (S "{{a.b}}") = false :=
  ⟨rfl, rfl⟩

/-- C2: `moveGroupDown` on an id that names no (non-empty) group is not a
silent no-op on a non-empty document: `findIndex` returns -1, the guard
`-1 < allItems.length - 1` passes, and reading `allItems[-1].order` throws a
TypeError (modelled as `.error ()`). -/
theorem C2_moveGroupDown_throws :
    moveGroupDown stOneBlock 99 = .error () ∧ stOneBlock.blocks.length = 1 :=
  ⟨rfl, rfl⟩

/-- C3 (counterexample): two default paragraph blocks do not round-trip: the
classifier of importMarkdown does not close a block at a blank line, so the
two paragraphs merge into one. -/
theorem C3_counterexample :
    stTwoParas.blocks.length = 2 ∧
    (importMarkdown stTwoParas (generateMarkdown stTwoParas)).blocks.length = 1 :=
  ⟨rfl, rfl⟩

/-- C6 (counterexample): blocks produced by `importMarkdown` carry no `order`
value at all (undefined), not the sequential top-level order `i`. -/
theorem C6_counterexample :
    (importMarkdown initState (S "# hi")).blocks.map Block.order = [none] ∧
    [(none : Option Int)] ≠ [some (0 : Int)] :=
  ⟨rfl, by decide⟩

/-- C8 (counterexample): in a reachable document with 3 blocks of which two
are grouped, the top-level item count is 2, but a newly added block gets
`order = blocks.length = 3`. -/
theorem C8_counterexample :
    topLevelCount stWithGroup = 2 ∧
    ((addBlock stWithGroup .paragraph none).blocks.getLastD dummyBlock).order = some 3 ∧
    some (3 : Int) ≠ some (2 : Int) :=
  ⟨rfl, rfl, by decide⟩

theorem clampIdx_nonneg (i : Int) (n : Nat) : 0 ≤ clampIdx i n := by
  unfold clampIdx
  split
  · split <;> omega
  · omega

theorem spliceRemove1_length {α : Type} (l : List α) (i : Int) :
    (spliceRemove1 l i).length =
      if clampIdx i l.length < (l.length : Int) then l.length - 1 else l.length := by
  unfold spliceRemove1
  by_cases h : clampIdx i l.length < (l.length : Int)
  · rw [if_pos h, if_pos h]
    have h0 := clampIdx_nonneg i l.length
    have hlt : (clampIdx i l.length).toNat < l.length := by omega
    exact List.length_eraseIdx_of_lt hlt
  · rw [if_neg h, if_neg h]

theorem spliceRemove1_length_congr {α β : Type} (l : List α) (m : List β) (i : Int)
    (h : l.length = m.length) : (spliceRemove1 l i).length = (spliceRemove1 m i).length := by
  rw [spliceRemove1_length, spliceRemove1_length, h]

theorem spliceRemove1_subset {α : Type} (l : List α) (i : Int) :
    ∀ x ∈ spliceRemove1 l i, x ∈ l := by
  unfold spliceRemove1
  split
  · intro x hx
    exact (List.eraseIdx_sublist _ _).subset hx
  · intro x hx
    exact hx

theorem TInv_addRowT {t : TableContent} (h : TInv t) : TInv (addRowT t) := by
  obtain ⟨h1, h2, h3⟩ := h
  refine ⟨h1, ?_, ?_⟩
  · simp [addRowT]
  · intro r hr
    simp only [addRowT, List.mem_append, List.mem_singleton] at hr
    cases hr with
    | inl hr => exact h3 r hr
    | inr hr => simp [addRowT, hr]

theorem TInv_addColT {t : TableContent} (h : TInv t) : TInv (addColT t) := by
  obtain ⟨h1, h2, h3⟩ := h
  refine ⟨?_, ?_, ?_⟩
  · simp [addColT]
  · simpa [addColT] using h2
  · intro r hr
    simp only [addColT, List.mem_map] at hr
    obtain ⟨r₀, hr₀, rfl⟩ := hr
    simp [addColT, h3 r₀ hr₀]

theorem TInv_delRowT {t : TableContent} (i : Int) (h : TInv t) : TInv (delRowT t i) := by
  obtain ⟨h1, h2, h3⟩ := h
  unfold delRowT
  split
  case isTrue hguard =>
    refine ⟨h1, ?_, ?_⟩
    · rw [spliceRemove1_length]
      split <;> omega
    · intro r hr
      exact h3 r (spliceRemove1_subset _ _ r hr)
  case isFalse => exact ⟨h1, h2, h3⟩

theorem TInv_delColT {t : TableContent} (i : Int) (h : TInv t) : TInv (delColT t i) := by
  obtain ⟨h1, h2, h3⟩ := h
  unfold delColT
  split
  case isTrue hguard =>
    refine ⟨?_, ?_, ?_⟩
    · rw [spliceRemove1_length]
      split <;> omega
    · simpa using h2
    · intro r hr
      simp only [List.mem_map] at hr
      obtain ⟨r₀, hr₀, rfl⟩ := hr
      exact spliceRemove1_length_congr r₀ t.headers i (h3 r₀ hr₀)
  case isFalse => exact ⟨h1, h2, h3⟩

theorem blockTInv_onTable {g : TableContent → TableContent}
    (hg : ∀ t, TInv t → TInv (g t)) {b : Block} (hb : blockTInv b) :
    blockTInv (onTable g b) := by
  unfold onTable
  split
  · cases hc : b.content with
    | table t =>
      intro t₂ ht₂
      simp only [hc] at ht₂
      cases ht₂
      exact hg t (hb t hc)
    | text s =>
      intro t₂ ht₂
      simp only [hc] at ht₂
      cases ht₂
  · exact hb

theorem updateFirstBlock_pres {P : Block → Prop} {bid : Nat} {f : Block → Block}
    (hf : ∀ b, P b → P (f b)) :
    ∀ l : List Block, (∀ b ∈ l, P b) → ∀ b ∈ updateFirstBlock bid f l, P b := by
  intro l
  induction l with
  | nil => intro _ b hb; cases hb
  | cons x xs ih =>
    intro h b hb
    unfold updateFirstBlock at hb
    split at hb
    · cases List.mem_cons.mp hb with
      | inl hbx => exact hbx ▸ hf x (h x (List.mem_cons_self x xs))
      | inr hbx => exact h b (List.mem_cons_of_mem x hbx)
    · cases List.mem_cons.mp hb with
      | inl hbx => exact hbx ▸ h x (List.mem_cons_self x xs)
      | inr hbx => exact ih (fun b hb => h b (List.mem_cons_of_mem x hb)) b hbx

theorem TInvState_call {st : EditorState} (op : TableCall) (h : TInvState st) :
    TInvState (applyTableCall st op) := by
  cases op with
  | aRow bid =>
    exact updateFirstBlock_pres (fun b hb => blockTInv_onTable (fun t => TInv_addRowT) hb)
      st.blocks h
  | aCol bid =>
    exact updateFirstBlock_pres (fun b hb => blockTInv_onTable (fun t => TInv_addColT) hb)
      st.blocks h
  | dRow bid i =>
    exact updateFirstBlock_pres (fun b hb => blockTInv_onTable (fun t => TInv_delRowT i) hb)
      st.blocks h
  | dCol bid i =>
    exact updateFirstBlock_pres (fun b hb => blockTInv_onTable (fun t => TInv_delColT i) hb)
      st.blocks h

theorem TInvState_calls {st : EditorState} (ops : List TableCall) (h : TInvState st) :
    TInvState (applyTableCalls st ops) := by
  induction ops generalizing st with
  | nil => exact h
  | cons op ops ih => exact ih (TInvState_call op h)

/-- C5: starting from any state whose tables satisfy the invariant, any finite
sequence of table-mutator calls with arbitrary ids and indices preserves it
(every row as long as the header row, at least one row and one column);
moreover deleting a row is a no-op at one remaining row and deleting a
column is a no-op at one remaining column. -/
theorem C5_table_invariant (st : EditorState) (ops : List TableCall) (h : TInvState st) :
    TInvState (applyTableCalls st ops) ∧
    (∀ (t : TableContent) (i : Int), t.rows.length = 1 → delRowT t i = t) ∧
    (∀ (t : TableContent) (i : Int), t.headers.length = 1 → delColT t i = t) := by
  refine ⟨TInvState_calls ops h, ?_, ?_⟩
  · intro t i h1
    unfold delRowT
    rw [if_neg]
    omega
  · intro t i h1
    unfold delColT
    rw [if_neg]
    omega

/-- Witness for C5 at a concrete table document and call sequence. -/
theorem C5_witness :
    TInvState (applyTableCalls stTable
      [.dRow 0 0, .aCol 0, .dCol 0 5, .aRow 0, .dRow 0 (-1), .dCol 0 0, .aRow 7]) ∧
    (∀ (t : TableContent) (i : Int), t.rows.length = 1 → delRowT t i = t) ∧
    (∀ (t : TableContent) (i : Int), t.headers.length = 1 → delColT t i = t) :=
  C5_table_invariant stTable
    [.dRow 0 0, .aCol 0, .dCol 0 5, .aRow 0, .dRow 0 (-1), .dCol 0 0, .aRow 7] (by decide)

theorem filter_ne_id_length {l : List Block} {bid : Nat}
    (hex : ∃ b ∈ l, b.id = bid) (hnd : (l.map Block.id).Nodup) :
    (l.filter (fun b => !(b.id == bid))).length + 1 = l.length := by
  induction l with
  | nil =>
    obtain ⟨b, hb, _⟩ := hex
    cases hb
  | cons x xs ih =>
    simp only [List.map_cons, List.nodup_cons] at hnd
    by_cases hx : x.id = bid
    · have hxs : ∀ b ∈ xs, (!(b.id == bid)) = true := by
        intro b hb
        simp only [Bool.not_eq_true', beq_eq_false_iff_ne, ne_eq]
        intro hbid
        exact hnd.1 (hx ▸ hbid ▸ List.mem_map_of_mem Block.id hb)
      rw [List.filter_cons_of_neg (by simp [hx]), List.filter_eq_self.mpr hxs]
      simp
    · have hex₂ : ∃ b ∈ xs, b.id = bid := by
        obtain ⟨b, hb, hbid⟩ := hex
        cases List.mem_cons.mp hb with
        | inl hbx => exact absurd (hbx ▸ hbid) hx
        | inr hbx => exact ⟨b, hbx, hbid⟩
      rw [List.filter_cons_of_pos (by simp [hx])]
      have := ih hex₂ hnd.2
      simp only [List.length_cons]
      omega

/-- C10: when `id` names an existing block, `deleteBlock` removes exactly that
block: every other block survives unchanged (with its relative order), and
the group map, the variable map and both counters are untouched — in
particular a group whose last member is deleted stays in the group map. -/
theorem C10_deleteBlock_frame (st : EditorState) (bid : Nat)
    (hex : ∃ b ∈ st.blocks, b.id = bid)
    (hnd : (st.blocks.map Block.id).Nodup) :
    (deleteBlock st bid).vars = st.vars ∧
    (deleteBlock st bid).groups = st.groups ∧
    (deleteBlock st bid).groupCounter = st.groupCounter ∧
    (deleteBlock st bid).idCounter = st.idCounter ∧
    List.Sublist (deleteBlock st bid).blocks st.blocks ∧
    (∀ b ∈ st.blocks, b.id ≠ bid → b ∈ (deleteBlock st bid).blocks) ∧
    (∀ b ∈ (deleteBlock st bid).blocks, b ∈ st.blocks ∧ b.id ≠ bid) ∧
    (deleteBlock st bid).blocks.length + 1 = st.blocks.length := by
  refine ⟨rfl, rfl, rfl, rfl, List.filter_sublist _, ?_, ?_, filter_ne_id_length hex hnd⟩
  · intro b hb hne
    exact List.mem_filter.mpr ⟨hb, by simp [hne]⟩
  · intro b hb
    have h₂ := List.mem_filter.mp hb
    refine ⟨h₂.1, by simpa using h₂.2⟩

/-- Witness for C10: deleting block 0 from a two-block document. -/
theorem C10_witness :
    (deleteBlock stTwoBlocks 0).groups = stTwoBlocks.groups ∧
    (deleteBlock stTwoBlocks 0).vars = stTwoBlocks.vars ∧
    (deleteBlock stTwoBlocks 0).blocks.length + 1 = stTwoBlocks.blocks.length := by
  have h := C10_deleteBlock_frame stTwoBlocks 0 (by decide) (by decide)
  exact ⟨h.2.1, h.1, h.2.2.2.2.2.2.2⟩

theorem assignGroup_map_id (gid k : Nat) (l : List Block) :
    (assignGroup gid k l).map Block.id = l.map Block.id := by
  induction l generalizing k with
  | nil => rfl
  | cons x xs ih =>
    unfold assignGroup
    split
    · simp only [List.map_cons, ih]
    · simp only [List.map_cons, ih]

theorem assignGroup_length (gid k : Nat) (l : List Block) :
    (assignGroup gid k l).length = l.length := by
  have h := congrArg List.length (assignGroup_map_id gid k l)
  simpa using h

theorem assignGroup_keep (gid k : Nat) (l : List Block) :
    ∀ b ∈ l, (b.selected && b.groupId.isNone) = false → b ∈ assignGroup gid k l := by
  induction l generalizing k with
  | nil => intro b hb; cases hb
  | cons x xs ih =>
    intro b hb hbf
    unfold assignGroup
    cases List.mem_cons.mp hb with
    | inl hbx =>
      subst hbx
      rw [if_neg (by simp [hbf])]
      exact List.mem_cons_self _ _
    | inr hbx =>
      split
      · exact List.mem_cons_of_mem _ (ih (k + 1) b hbx hbf)
      · exact List.mem_cons_of_mem _ (ih k b hbx hbf)

theorem assignGroup_filter (gid k : Nat) (l : List Block)
    (hno : ∀ b ∈ l, b.groupId ≠ some gid) :
    (assignGroup gid k l).filter (fun b => decide (b.groupId = some gid)) =
      numberFrom gid k (l.filter (fun b => b.selected && b.groupId.isNone)) := by
  induction l generalizing k with
  | nil => rfl
  | cons x xs ih =>
    have hnoxs : ∀ b ∈ xs, b.groupId ≠ some gid :=
      fun b hb => hno b (List.mem_cons_of_mem x hb)
    unfold assignGroup
    by_cases hx : (x.selected && x.groupId.isNone) = true
    · rw [if_pos hx]
      rw [show List.filter (fun b => b.selected && b.groupId.isNone) (x :: xs) =
        x :: List.filter (fun b => b.selected && b.groupId.isNone) xs from by
          rw [List.filter_cons, if_pos hx]]
      rw [show List.filter (fun b => decide (b.groupId = some gid))
          (({ x with groupId := some gid, selected := false, order := some (k : Int) } : Block) ::
            assignGroup gid (k + 1) xs) =
          ({ x with groupId := some gid, selected := false, order := some (k : Int) } : Block) ::
            List.filter (fun b => decide (b.groupId = some gid)) (assignGroup gid (k + 1) xs) from by
        rw [List.filter_cons, if_pos (by simp)]]
      unfold numberFrom
      rw [ih (k + 1) hnoxs]
    · rw [if_neg hx]
      rw [show List.filter (fun b => b.selected && b.groupId.isNone) (x :: xs) =
        List.filter (fun b => b.selected && b.groupId.isNone) xs from by
          rw [List.filter_cons, if_neg (by simp [hx])]]
      rw [show List.filter (fun b => decide (b.groupId = some gid)) (x :: assignGroup gid k xs) =
          List.filter (fun b => decide (b.groupId = some gid)) (assignGroup gid k xs) from by
        rw [List.filter_cons, if_neg (by simp [hno x (List.mem_cons_self x xs)])]]
      exact ih k hnoxs

theorem foldl_min_mem (xs : List Int) (x : Int) : xs.foldl min x ∈ x :: xs := by
  induction xs generalizing x with
  | nil => simp
  | cons a as ih =>
    simp only [List.foldl_cons]
    have h := ih (min x a)
    cases List.mem_cons.mp h with
    | inl h =>
      rcases le_total x a with hle | hle
      · rw [h, min_eq_left hle]
        exact List.mem_cons_self _ _
      · rw [h, min_eq_right hle]
        exact List.mem_cons_of_mem _ (List.mem_cons_self _ _)
    | inr h => exact List.mem_cons_of_mem _ (List.mem_cons_of_mem _ h)

theorem foldl_min_le (xs : List Int) (x : Int) : ∀ y ∈ x :: xs, xs.foldl min x ≤ y := by
  induction xs generalizing x with
  | nil =>
    intro y hy
    rcases List.mem_cons.mp hy with rfl | hy₂
    · exact le_refl y
    · cases hy₂
  | cons a as ih =>
    intro y hy
    simp only [List.foldl_cons]
    have hmin : as.foldl min (min x a) ≤ min x a :=
      ih (min x a) (min x a) (List.mem_cons_self _ _)
    rcases List.mem_cons.mp hy with rfl | hy₂
    · exact le_trans hmin (min_le_left _ _)
    · rcases List.mem_cons.mp hy₂ with rfl | hy₃
      · exact le_trans hmin (min_le_right _ _)
      · exact ih (min x a) y (List.mem_cons_of_mem _ hy₃)

theorem listMinI_spec (l : List Int) (h : l ≠ []) :
    listMinI l ∈ l ∧ ∀ y ∈ l, listMinI l ≤ y := by
  cases l with
  | nil => exact absurd rfl h
  | cons x xs => exact ⟨foldl_min_mem xs x, foldl_min_le xs x⟩

theorem jsMapSet_fresh {α : Type} (m : List (Nat × α)) (k : Nat) (v : α)
    (h : ∀ p ∈ m, p.1 ≠ k) : jsMapSet m k v = m ++ [(k, v)] := by
  unfold jsMapSet
  rw [if_neg]
  simp only [List.any_eq_true, beq_iff_eq, not_exists, not_and]
  exact fun p hp => h p hp

/-- C4: `groupSelectedBlocks` with fewer than two selected ungrouped blocks
shows the insufficient-selection alert and changes nothing; with at least
two it creates exactly one new group whose order is the minimum order among
the selected blocks, reassigns each selected block to it with orders
0, 1, 2, … in selection order, clears their selection, and leaves the other
blocks and the variables untouched. -/
theorem C4_groupSelectedBlocks (st : EditorState)
    (hkeys : ∀ p ∈ st.groups, p.1 < st.groupCounter)
    (hgids : ∀ b ∈ st.blocks, b.groupId.all (fun g => decide (g < st.groupCounter)) = true) :
    ((st.blocks.filter (fun b => b.selected && b.groupId.isNone)).length < 2 →
      groupSelectedBlocks st = (st, true)) ∧
    (2 ≤ (st.blocks.filter (fun b => b.selected && b.groupId.isNone)).length →
      (groupSelectedBlocks st).2 = false ∧
      (∃ g : Group,
        (groupSelectedBlocks st).1.groups = st.groups ++ [(st.groupCounter, g)] ∧
        g.id = st.groupCounter ∧
        (∃ m : Int, g.order = some m ∧
          m ∈ (st.blocks.filter (fun b => b.selected && b.groupId.isNone)).map
            (fun b => b.order.getD 0) ∧
          ∀ x ∈ (st.blocks.filter (fun b => b.selected && b.groupId.isNone)).map
            (fun b => b.order.getD 0), m ≤ x)) ∧
      (groupSelectedBlocks st).1.blocks.filter (fun b => decide (b.groupId = some st.groupCounter)) =
        numberFrom st.groupCounter 0 (st.blocks.filter (fun b => b.selected && b.groupId.isNone)) ∧
      (∀ b ∈ st.blocks, (b.selected && b.groupId.isNone) = false →
        b ∈ (groupSelectedBlocks st).1.blocks) ∧
      (groupSelectedBlocks st).1.blocks.length = st.blocks.length ∧
      (groupSelectedBlocks st).1.vars = st.vars ∧
      (groupSelectedBlocks st).1.groupCounter = st.groupCounter + 1) := by
  constructor
  · intro hlt
    unfold groupSelectedBlocks
    rw [if_pos hlt]
  · intro hge
    have hlt : ¬(st.blocks.filter (fun b => b.selected && b.groupId.isNone)).length < 2 := by
      omega
    have hno : ∀ b ∈ st.blocks, b.groupId ≠ some st.groupCounter := by
      intro b hb hsome
      have hall := hgids b hb
      rw [hsome] at hall
      simp only [Option.all_some, decide_eq_true_eq] at hall
      omega
    have hfresh : ∀ p ∈ st.groups, p.1 ≠ st.groupCounter :=
      fun p hp => Nat.ne_of_lt (hkeys p hp)
    have hne : (st.blocks.filter (fun b => b.selected && b.groupId.isNone)).map
        (fun b => b.order.getD 0) ≠ [] := by
      intro hmap
      have hlen := congrArg List.length hmap
      simp only [List.length_map, List.length_nil] at hlen
      omega
    have hspec := listMinI_spec _ hne
    simp only [groupSelectedBlocks]
    rw [if_neg hlt]
    refine ⟨rfl, ⟨_, jsMapSet_fresh st.groups st.groupCounter _ hfresh, rfl, _, rfl,
      hspec.1, hspec.2⟩, ?_, ?_, ?_, rfl, rfl⟩
    · exact assignGroup_filter st.groupCounter 0 st.blocks hno
    · exact assignGroup_keep st.groupCounter 0 st.blocks
    · exact assignGroup_length st.groupCounter 0 st.blocks

/-- Witness for C4 at a concrete state with two selected blocks. -/
theorem C4_witness :
    2 ≤ ((setSelected (setSelected stWithGroupPre 0 true) 1 true).blocks.filter
      (fun b => b.selected && b.groupId.isNone)).length ∧
    (groupSelectedBlocks (setSelected (setSelected stWithGroupPre 0 true) 1 true)).2 = false := by
  have h := C4_groupSelectedBlocks (setSelected (setSelected stWithGroupPre 0 true) 1 true)
    (by decide) (by decide)
  exact ⟨by decide, (h.2 (by decide)).1⟩

/-- C8 (amended): `addBlock` appends exactly one block carrying a fresh id,
the default content for the type, no group, no selection, and order equal
to the current length of the block array — the total block count, including
grouped blocks, not the top-level item count. -/
theorem C8_addBlock_amended (st : EditorState) (t : BlockType)
    (hfresh : ∀ b ∈ st.blocks, b.id < st.idCounter) :
    (∃ b : Block,
      (addBlock st t none).blocks = st.blocks ++ [b] ∧
      b.type = t ∧ b.content = getDefaultContent t ∧ b.groupId = none ∧
      b.selected = false ∧ b.order = some (st.blocks.length : Int) ∧
      b.id ∉ st.blocks.map Block.id) ∧
    (addBlock st t none).vars = st.vars ∧
    (addBlock st t none).groups = st.groups ∧
    (addBlock st t none).groupCounter = st.groupCounter := by
  refine ⟨⟨_, rfl, rfl, rfl, rfl, rfl, rfl, ?_⟩, rfl, rfl, rfl⟩
  intro hmem
  obtain ⟨b, hb, hbid⟩ := List.mem_map.mp hmem
  have hbid₂ : Block.id b = st.idCounter := hbid
  have hlt := hfresh b hb
  omega

/-- Witness for C8 at the grouped three-block document. -/
theorem C8_witness :
    (addBlock stWithGroup .paragraph none).groups = stWithGroup.groups ∧
    (addBlock stWithGroup .paragraph none).groupCounter = stWithGroup.groupCounter :=
  ⟨(C8_addBlock_amended stWithGroup .paragraph (by decide)).2.2.1,
   (C8_addBlock_amended stWithGroup .paragraph (by decide)).2.2.2⟩

theorem buildImported_ids (n : Nat) (ps : List (BlockType × Str)) :
    (buildImported n ps).map Block.id = List.range' n ps.length := by
  induction ps generalizing n with
  | nil => rfl
  | cons p ps ih =>
    simp only [buildImported, List.map_cons, List.length_cons, List.range'_succ, ih]

theorem buildImported_fields (n : Nat) (ps : List (BlockType × Str)) :
    ∀ b ∈ buildImported n ps,
      b.groupId = none ∧ b.order = none ∧ b.selected = false ∧ n ≤ b.id := by
  induction ps generalizing n with
  | nil => intro b hb; cases hb
  | cons p ps ih =>
    intro b hb
    cases List.mem_cons.mp hb with
    | inl hbx => subst hbx; exact ⟨rfl, rfl, rfl, le_refl n⟩
    | inr hbx =>
      have h := ih (n + 1) b hbx
      exact ⟨h.1, h.2.1, h.2.2.1, by omega⟩

theorem buildImported_pairs (n : Nat) (ps : List (BlockType × Str)) :
    (buildImported n ps).map blockPair = ps := by
  induction ps generalizing n with
  | nil => rfl
  | cons p ps ih =>
    cases p with
    | mk t c => simp only [buildImported, List.map_cons, blockPair, ih]

theorem normalizeLoadedGo_orders (i : Nat) (bs : List Block)
    (h : ∀ b ∈ bs, b.order = none) :
    (normalizeLoadedGo i bs).map Block.order =
      (List.range' i bs.length).map (fun k => some (k : Int)) := by
  induction bs generalizing i with
  | nil => rfl
  | cons b bs ih =>
    have hb := h b (List.mem_cons_self b bs)
    simp only [normalizeLoadedGo, if_pos hb, List.map_cons, List.length_cons,
      List.range'_succ]
    exact congrArg _ (ih (i + 1) (fun b hb => h b (List.mem_cons_of_mem _ hb)))

/-- C6 (amended): `importMarkdown` replaces the whole block list (the result
does not depend on the previous blocks); every produced block has a fresh,
pairwise-distinct id, no `groupId` and no selection; but the produced
blocks carry NO `order` value at all (undefined, read as 0 by the ordering
engine with the insertion-order tiebreak preserving the import sequence);
the sequential order `i` is assigned only by the loader's normalisation
pass (`loadFromStorage`), not by the import itself. -/
theorem C6_importMarkdown_amended (st st₂ : EditorState) (text : Str)
    (hctr : st₂.idCounter = st.idCounter) :
    ((importMarkdown st text).blocks.map blockPair = importedRaw text) ∧
    ((importMarkdown st₂ text).blocks = (importMarkdown st text).blocks) ∧
    ((importMarkdown st text).blocks.map Block.id =
      List.range' st.idCounter (importedRaw text).length) ∧
    ((importMarkdown st text).blocks.map Block.id).Nodup ∧
    (∀ b ∈ (importMarkdown st text).blocks,
      b.groupId = none ∧ b.order = none ∧ b.selected = false ∧ st.idCounter ≤ b.id) ∧
    ((normalizeLoadedBlocks (importMarkdown st text).blocks).map Block.order =
      (List.range' 0 (importedRaw text).length).map (fun k => some (k : Int))) ∧
    (importMarkdown st text).vars = st.vars ∧
    (importMarkdown st text).groups = st.groups := by
  have hids : (importMarkdown st text).blocks.map Block.id =
      List.range' st.idCounter (importedRaw text).length :=
    buildImported_ids st.idCounter (importedRaw text)
  have hlen : (importMarkdown st text).blocks.length = (importedRaw text).length := by
    have h := congrArg List.length hids
    simpa using h
  refine ⟨buildImported_pairs _ _, ?_, hids, ?_, buildImported_fields _ _, ?_, rfl, rfl⟩
  · simp only [importMarkdown, hctr]
  · rw [hids]
    exact List.nodup_range' _ _
  · have horders : ∀ b ∈ (importMarkdown st text).blocks, b.order = none :=
      fun b hb => (buildImported_fields _ _ b hb).2.1
    rw [show normalizeLoadedBlocks (importMarkdown st text).blocks =
      normalizeLoadedGo 0 (importMarkdown st text).blocks from rfl,
      normalizeLoadedGo_orders 0 _ horders, hlen]

/-- Witness for C6 at two states with equal id counters. -/
theorem C6_witness :
    (importMarkdown stTwoBlocks (S "# hi")).blocks = (importMarkdown stTwoParas (S "# hi")).blocks ∧
    (importMarkdown stTwoParas (S "# hi")).blocks.map blockPair = importedRaw (S "# hi") := by
  have h := C6_importMarkdown_amended stTwoParas stTwoBlocks (S "# hi") (by decide)
  exact ⟨h.2.1, h.1⟩

theorem map_id_of_preserve {l : List Block} {f : Block → Block}
    (hf : ∀ b, (f b).id = b.id) : (l.map f).map Block.id = l.map Block.id := by
  rw [List.map_map]
  exact List.map_congr_left (fun a _ => hf a)

theorem inv_blocks_map (st : EditorState) (f : Block → Block)
    (hf : ∀ b, (f b).id = b.id) (h : Inv st) :
    Inv { st with blocks := st.blocks.map f } := by
  obtain ⟨h1, h2, h3, h4, h5⟩ := h
  refine ⟨?_, ?_, h3, h4, h5⟩
  · rw [show ({ st with blocks := st.blocks.map f } : EditorState).blocks = st.blocks.map f from rfl,
      map_id_of_preserve hf]
    exact h1
  · intro b hb
    obtain ⟨a, ha, rfl⟩ := List.mem_map.mp hb
    rw [hf]
    exact h2 a ha

theorem inv_blocks_filter (st : EditorState) (p : Block → Bool) (h : Inv st) :
    Inv { st with blocks := st.blocks.filter p } := by
  obtain ⟨h1, h2, h3, h4, h5⟩ := h
  refine ⟨?_, ?_, h3, h4, h5⟩
  · exact List.Nodup.sublist (List.Sublist.map Block.id (List.filter_sublist st.blocks)) h1
  · intro b hb
    exact h2 b (List.mem_of_mem_filter hb)

theorem inv_groups_filter (st : EditorState) (p : Nat × Group → Bool) (h : Inv st) :
    Inv { st with groups := st.groups.filter p } := by
  obtain ⟨h1, h2, h3, h4, h5⟩ := h
  refine ⟨h1, h2, ?_, ?_, ?_⟩
  · exact List.Nodup.sublist (List.Sublist.map Prod.fst (List.filter_sublist st.groups)) h3
  · intro q hq
    exact h4 q (List.mem_of_mem_filter hq)
  · intro q hq
    exact h5 q (List.mem_of_mem_filter hq)

theorem inv_of_parts (blocks : List Block) (vs : List (Nat × VarEntry))
    (groups : List (Nat × Group)) (gc ic : Nat)
    (hb : (blocks.map Block.id).Nodup) (hb₂ : ∀ b ∈ blocks, b.id < ic)
    (hg : (groups.map Prod.fst).Nodup) (hg₂ : ∀ p ∈ groups, p.1 < gc)
    (hg₃ : ∀ p ∈ groups, p.2.id = p.1) :
    Inv ⟨blocks, vs, groups, gc, ic⟩ :=
  ⟨hb, hb₂, hg, hg₂, hg₃⟩

theorem inv_groups_map (st : EditorState) (f : Nat × Group → Nat × Group)
    (hfst : ∀ p, (f p).1 = p.1)
    (hid : ∀ p ∈ st.groups, p.2.id = p.1 → ((f p).2).id = (f p).1) (h : Inv st) :
    Inv { st with groups := st.groups.map f } := by
  obtain ⟨h1, h2, h3, h4, h5⟩ := h
  refine inv_of_parts _ _ _ _ _ h1 h2 ?_ ?_ ?_
  · rw [List.map_map]
    have heq : List.map (Prod.fst ∘ f) st.groups = List.map Prod.fst st.groups :=
      List.map_congr_left (fun a _ => hfst a)
    rw [heq]
    exact h3
  · intro q hq
    obtain ⟨a, ha, rfl⟩ := List.mem_map.mp hq
    rw [hfst]
    exact h4 a ha
  · intro q hq
    obtain ⟨a, ha, rfl⟩ := List.mem_map.mp hq
    exact hid a ha (h5 a ha)

theorem inv_setItemOrder (st : EditorState) (it : OItem) (v : Int) (h : Inv st) :
    Inv (setItemOrder st it v) := by
  cases it with
  | blk b =>
    refine inv_blocks_map st _ ?_ h
    intro x
    dsimp only
    split <;> rfl
  | grp g ms =>
    refine inv_groups_map st _ ?_ ?_ h
    · intro p
      dsimp only
      split <;> rfl
    · intro p hp hco
      dsimp only
      split
      · exact hco
      · exact hco

theorem inv_moveItemUp (st : EditorState) (kind : ItemKind) (iid : Nat) (h : Inv st) :
    Inv (moveItemUp st kind iid) := by
  simp only [moveItemUp]
  split
  · split
    · exact inv_setItemOrder _ _ _ (inv_setItemOrder _ _ _ h)
    · exact h
  · exact h

theorem inv_moveItemDownRun (st : EditorState) (kind : ItemKind) (iid : Nat) (h : Inv st) :
    Inv (match moveItemDown st kind iid with | .ok st₂ => st₂ | .error _ => st) := by
  rcases hidx : (getAllOrderedItems st).findIdx? (itemIs kind iid) with _ | i
  · simp only [moveItemDown, hidx]
    by_cases hlen : 1 ≤ (getAllOrderedItems st).length
    · rw [if_pos hlen]
      exact h
    · rw [if_neg hlen]
      exact h
  · simp only [moveItemDown, hidx]
    by_cases hlt : i + 1 < (getAllOrderedItems st).length
    · rw [if_pos hlt]
      exact inv_setItemOrder _ _ _ (inv_setItemOrder _ _ _ h)
    · rw [if_neg hlt]
      exact h

theorem inv_setBlockRawOrder (st : EditorState) (bid : Nat) (v : Option Int) (h : Inv st) :
    Inv (setBlockRawOrder st bid v) := by
  refine inv_blocks_map st _ ?_ h
  intro x
  dsimp only
  split <;> rfl

theorem inv_moveBlockUp (st : EditorState) (bid : Nat) (h : Inv st) :
    Inv (moveBlockUp st bid) := by
  simp only [moveBlockUp]
  split
  · exact h
  · split
    · split
      · split
        · exact inv_setBlockRawOrder _ _ _ (inv_setBlockRawOrder _ _ _ h)
        · exact h
      · exact h
    · exact inv_moveItemUp st .block bid h

theorem inv_moveBlockDown (st : EditorState) (bid : Nat) (h : Inv st) :
    Inv (moveBlockDown st bid) := by
  simp only [moveBlockDown]
  split
  · exact h
  · split
    · split
      · split
        · exact inv_setBlockRawOrder _ _ _ (inv_setBlockRawOrder _ _ _ h)
        · exact h
      · exact h
    · have h₂ := inv_moveItemDownRun st .block bid h
      split
      · rename_i st₂ heq
        rw [heq] at h₂
        exact h₂
      · rename_i e heq
        rw [heq] at h₂
        exact h₂

theorem inv_addBlock (st : EditorState) (t : BlockType) (h : Inv st) :
    Inv (addBlock st t none) := by
  obtain ⟨h1, h2, h3, h4, h5⟩ := h
  refine ⟨?_, ?_, h3, h4, h5⟩
  · show (List.map Block.id (st.blocks ++
      [{ id := st.idCounter, type := t, content := getDefaultContent t,
         groupId := none, selected := false,
         order := some (st.blocks.length : Int) }])).Nodup
    rw [List.map_append, List.nodup_append]
    refine ⟨h1, List.nodup_singleton _, ?_⟩
    intro x hx hy
    simp only [List.map_cons, List.map_nil, List.mem_singleton] at hy
    obtain ⟨a, ha, rfl⟩ := List.mem_map.mp hx
    have := h2 a ha
    omega
  · intro b hb
    show b.id < st.idCounter + 1
    rcases List.mem_append.mp hb with hb₂ | hb₂
    · have := h2 b hb₂
      omega
    · simp only [List.mem_singleton] at hb₂
      subst hb₂
      show st.idCounter < st.idCounter + 1
      omega

theorem inv_groupSelectedBlocks (st : EditorState) (h : Inv st) :
    Inv (groupSelectedBlocks st).1 := by
  obtain ⟨h1, h2, h3, h4, h5⟩ := h
  simp only [groupSelectedBlocks]
  split
  · exact ⟨h1, h2, h3, h4, h5⟩
  · have hfresh : ∀ p ∈ st.groups, p.1 ≠ st.groupCounter :=
      fun p hp => Nat.ne_of_lt (h4 p hp)
    refine inv_of_parts _ _ _ _ _ ?_ ?_ ?_ ?_ ?_
    · rw [assignGroup_map_id]
      exact h1
    · intro b hb
      have hid : b.id ∈ (assignGroup st.groupCounter 0 st.blocks).map Block.id :=
        List.mem_map_of_mem Block.id hb
      rw [assignGroup_map_id] at hid
      obtain ⟨a, ha, haid⟩ := List.mem_map.mp hid
      rw [← haid]
      exact h2 a ha
    · rw [jsMapSet_fresh st.groups st.groupCounter _ hfresh, List.map_append, List.nodup_append]
      refine ⟨h3, List.nodup_singleton _, ?_⟩
      intro x hx hy
      simp only [List.map_cons, List.map_nil, List.mem_singleton] at hy
      obtain ⟨p, hp, rfl⟩ := List.mem_map.mp hx
      have := h4 p hp
      omega
    · intro p hp
      rw [jsMapSet_fresh st.groups st.groupCounter _ hfresh] at hp
      rcases List.mem_append.mp hp with hp₂ | hp₂
      · have := h4 p hp₂
        omega
      · simp only [List.mem_singleton] at hp₂
        subst hp₂
        omega
    · intro p hp
      rw [jsMapSet_fresh st.groups st.groupCounter _ hfresh] at hp
      rcases List.mem_append.mp hp with hp₂ | hp₂
      · exact h5 p hp₂
      · simp only [List.mem_singleton] at hp₂
        subst hp₂
        rfl

theorem inv_step {s s₂ : EditorState} (hs : Step s s₂) (h : Inv s) : Inv s₂ := by
  cases hs with
  | addBlockS t => exact inv_addBlock _ t h
  | deleteBlockS bid => exact inv_blocks_filter _ _ h
  | setSelectedS bid flag =>
    refine inv_blocks_map _ _ ?_ h
    intro x
    dsimp only
    split <;> rfl
  | moveBlockUpS bid => exact inv_moveBlockUp _ bid h
  | moveBlockDownS bid => exact inv_moveBlockDown _ bid h
  | moveGroupUpS gid => exact inv_moveItemUp _ .group gid h
  | moveGroupDownS gid => exact inv_moveItemDownRun _ .group gid h
  | groupSelectedS => exact inv_groupSelectedBlocks _ h
  | ungroupS gid =>
    have h₂ := inv_groups_filter _ (fun p => !(p.1 == gid)) h
    refine inv_blocks_map _ _ ?_ h₂
    intro x
    dsimp only
    split <;> rfl
  | deleteGroupS gid =>
    have h₂ := inv_groups_filter _ (fun p => !(p.1 == gid)) h
    exact inv_blocks_filter _ _ h₂

theorem inv_init : Inv initState := by
  refine ⟨List.nodup_nil, ?_, List.nodup_nil, ?_, ?_⟩ <;>
    intro x hx <;> cases hx

theorem reachable_inv {st : EditorState} (h : Reachable st) : Inv st := by
  induction h with
  | init => exact inv_init
  | step hr hs ih => exact inv_step hs ih

theorem filterMap_blk_ids (l : List Block) :
    (l.map OItem.blk).filterMap itemBlockId = l.map Block.id := by
  induction l with
  | nil => rfl
  | cons b bs ih => simp only [List.map_cons, List.filterMap_cons, itemBlockId, ih]

theorem groupTags_blockIds (st : EditorState) :
    (groupTags st).filterMap itemBlockId = [] := by
  apply List.filterMap_eq_nil_iff.mpr
  intro x hx
  obtain ⟨p, hp, hfp⟩ := List.mem_filterMap.mp hx
  dsimp only at hfp
  split at hfp
  · cases hfp
  · cases hfp
    rfl

theorem ungroupedTags_groupIds (st : EditorState) :
    (ungroupedTags st).filterMap itemGroupId = [] := by
  apply List.filterMap_eq_nil_iff.mpr
  intro x hx
  obtain ⟨b, hb, rfl⟩ := List.mem_map.mp hx
  rfl

theorem filterMap_key_nodup {α : Type} (l : List (Nat × α)) (f : Nat × α → Option Nat)
    (hf : ∀ p ∈ l, ∀ y, f p = some y → y = p.1) (h : (l.map Prod.fst).Nodup) :
    (l.filterMap f).Nodup := by
  induction l with
  | nil => exact List.nodup_nil
  | cons p l ih =>
    simp only [List.map_cons, List.nodup_cons] at h
    rw [List.filterMap_cons]
    cases hfp : f p with
    | none => exact ih (fun q hq y hy => hf q (List.mem_cons_of_mem _ hq) y hy) h.2
    | some y =>
      have hy := hf p (List.mem_cons_self _ _) y hfp
      subst hy
      rw [List.nodup_cons]
      refine ⟨?_, ih (fun q hq y hy => hf q (List.mem_cons_of_mem _ hq) y hy) h.2⟩
      intro hmem
      obtain ⟨q, hq, hfq⟩ := List.mem_filterMap.mp hmem
      have heq := hf q (List.mem_cons_of_mem _ hq) _ hfq
      exact h.1 (heq ▸ List.mem_map_of_mem Prod.fst hq)

theorem groupTags_groupIds_nodup (st : EditorState) (h3 : (st.groups.map Prod.fst).Nodup)
    (h5 : ∀ p ∈ st.groups, p.2.id = p.1) :
    ((groupTags st).filterMap itemGroupId).Nodup := by
  unfold groupTags
  rw [List.filterMap_filterMap]
  apply filterMap_key_nodup st.groups _ ?_ h3
  intro p hp y hy
  dsimp only [Option.bind] at hy
  split at hy
  · cases hy
  · rename_i ms heq
    split at heq
    · cases heq
    · cases heq
      cases hy
      exact h5 p hp

theorem mem_groupTags (st : EditorState) (g : Group) (ms : List Block)
    (h : OItem.grp g ms ∈ groupTags st) :
    ∃ p ∈ st.groups, g = p.2 ∧
      ms = st.blocks.filter (fun b => decide (b.groupId = some p.1)) ∧ ms ≠ [] := by
  obtain ⟨p, hp, hfp⟩ := List.mem_filterMap.mp h
  dsimp only at hfp
  split at hfp
  · cases hfp
  · rename_i hne
    cases hfp
    refine ⟨p, hp, rfl, rfl, ?_⟩
    intro hnil
    rw [hnil] at hne
    exact hne rfl

/-- C1: in every reachable document state, the ordered top-level sequence of
`getAllOrderedItems` lists each block id at most once and each group id at
most once, and every group item it contains has a non-zero current member
count (blocks whose `groupId` is that group). -/
theorem C1_ordered_items_invariant (st : EditorState) (h : Reachable st) :
    ((getAllOrderedItems st).filterMap itemBlockId).Nodup ∧
    ((getAllOrderedItems st).filterMap itemGroupId).Nodup ∧
    ∀ g ms, OItem.grp g ms ∈ getAllOrderedItems st →
      ms ≠ [] ∧ st.blocks.filter (fun b => decide (b.groupId = some g.id)) ≠ [] := by
  obtain ⟨h1, h2, h3, h4, h5⟩ := reachable_inv h
  have hperm : (getAllOrderedItems st).Perm (ungroupedTags st ++ groupTags st) :=
    List.perm_insertionSort _ _
  refine ⟨?_, ?_, ?_⟩
  · rw [(hperm.filterMap itemBlockId).nodup_iff]
    rw [List.filterMap_append,
      show ungroupedTags st = (st.blocks.filter (fun b => b.groupId.isNone)).map OItem.blk
        from rfl,
      filterMap_blk_ids, groupTags_blockIds, List.append_nil]
    exact List.Nodup.sublist
      (List.Sublist.map Block.id (List.filter_sublist st.blocks)) h1
  · rw [(hperm.filterMap itemGroupId).nodup_iff]
    rw [List.filterMap_append, ungroupedTags_groupIds, List.nil_append]
    exact groupTags_groupIds_nodup st h3 h5
  · intro g ms hmem
    have hmem₂ := hperm.mem_iff.mp hmem
    rcases List.mem_append.mp hmem₂ with hin | hin
    · obtain ⟨b, hb, hbe⟩ := List.mem_map.mp hin
      cases hbe
    · obtain ⟨p, hp, hge, hmse, hne⟩ := mem_groupTags st g ms hin
      subst hge
      refine ⟨hne, ?_⟩
      rw [h5 p hp, ← hmse]
      exact hne

/-- Witness for C1 at the reachable grouped three-block document. -/
theorem C1_witness :
    ((getAllOrderedItems stWithGroup).filterMap itemBlockId).Nodup ∧
    ((getAllOrderedItems stWithGroup).filterMap itemGroupId).Nodup := by
  have h := C1_ordered_items_invariant stWithGroup
    (Reachable.step
      (Reachable.step
        (Reachable.step
          (Reachable.step
            (Reachable.step
              (Reachable.step Reachable.init (Step.addBlockS _ .heading))
              (Step.addBlockS _ .heading))
            (Step.addBlockS _ .heading))
          (Step.setSelectedS _ 0 true))
        (Step.setSelectedS _ 1 true))
      (Step.groupSelectedS _))
  exact ⟨h.1, h.2.1⟩

theorem startsWith_head_false (c : Char) (r : Str) (d : Char) (p : Str) (h : ¬c = d) :
    startsWithS (c :: r) (d :: p) = false := by
  have hdc : (d == c) = false := beq_eq_false_iff_ne.mpr (fun he => h he.symm)
  simp [startsWithS, List.isPrefixOf, hdc]

theorem startsWith1_shape (l : Str) (c₁ : Char) (h : startsWithS l [c₁] = true) :
    ∃ r, l = c₁ :: r := by
  cases l with
  | nil => simp [startsWithS, List.isPrefixOf] at h
  | cons a r =>
    simp only [startsWithS, List.isPrefixOf, List.isPrefixOf_nil_left, Bool.and_true,
      beq_iff_eq] at h
    exact ⟨r, by rw [h]⟩

theorem startsWith2_shape (l : Str) (c₁ c₂ : Char)
    (h : startsWithS l (c₁ :: c₂ :: []) = true) : ∃ r, l = c₁ :: c₂ :: r := by
  cases l with
  | nil => simp [startsWithS, List.isPrefixOf] at h
  | cons a r =>
    cases r with
    | nil => simp [startsWithS, List.isPrefixOf] at h
    | cons b r₂ =>
      simp only [startsWithS, List.isPrefixOf, List.isPrefixOf_nil_left, Bool.and_true,
        Bool.and_eq_true, beq_iff_eq] at h
      exact ⟨r₂, by rw [h.1, h.2]⟩

theorem isListLine_shape (l : Str) (h : isListLine l = true) :
    ∃ c r, l = c :: ' ' :: r ∧ (c = '-' ∨ c = '*') := by
  unfold isListLine at h
  rcases (Bool.or_eq_true _ _).mp h with h₂ | h₂
  · rw [show S "- " = '-' :: ' ' :: [] from rfl] at h₂
    obtain ⟨r, hr⟩ := startsWith2_shape l '-' ' ' h₂
    exact ⟨'-', r, hr, Or.inl rfl⟩
  · rw [show S "* " = '*' :: ' ' :: [] from rfl] at h₂
    obtain ⟨r, hr⟩ := startsWith2_shape l '*' ' ' h₂
    exact ⟨'*', r, hr, Or.inr rfl⟩

theorem isListLine_facts (l : Str) (h : isListLine l = true) :
    startsWithS l (S "#") = false ∧ startsWithS l (S "```") = false := by
  obtain ⟨c, r, rfl, hc⟩ := isListLine_shape l h
  rcases hc with rfl | rfl
  · exact ⟨startsWith_head_false _ _ _ _ (by decide),
      startsWith_head_false _ _ _ _ (by decide)⟩
  · exact ⟨startsWith_head_false _ _ _ _ (by decide),
      startsWith_head_false _ _ _ _ (by decide)⟩

theorem fence_facts (l : Str) (h : startsWithS l (S "```") = true) :
    startsWithS l (S "#") = false ∧ isListLine l = false := by
  rw [show S "```" = '`' :: '`' :: ['`'] from rfl] at h
  cases l with
  | nil => simp [startsWithS, List.isPrefixOf] at h
  | cons a r =>
    have ha : a = '`' := by
      cases r with
      | nil => simp [startsWithS, List.isPrefixOf] at h
      | cons b r₂ =>
        simp only [startsWithS, List.isPrefixOf, Bool.and_eq_true, beq_iff_eq] at h
        exact h.1.symm
    subst ha
    refine ⟨startsWith_head_false _ _ _ _ (by decide), ?_⟩
    unfold isListLine
    rw [show S "- " = '-' :: ' ' :: [] from rfl, show S "* " = '*' :: ' ' :: [] from rfl,
      startsWith_head_false _ _ _ _ (by decide), startsWith_head_false _ _ _ _ (by decide)]
    rfl

theorem isPlainLine_facts (l : Str) (h : isPlainLine l = true) :
    startsWithS l (S "#") = false ∧ startsWithS l (S "```") = false ∧
      isListLine l = false ∧ (trimS l).isEmpty = false := by
  unfold isPlainLine at h
  simp only [Bool.and_eq_true, Bool.not_eq_true'] at h
  exact ⟨h.1.1.1, h.1.1.2, h.1.2, h.2⟩

theorem step_blank (stp : ImpState) : importLineStep stp [] = stp := by
  have h₁ : startsWithS [] (S "#") = false := rfl
  have h₂ : startsWithS [] (S "```") = false := rfl
  have h₃ : isListLine [] = false := rfl
  have h₄ : (trimS ([] : Str)).isEmpty = true := rfl
  simp [importLineStep, h₁, h₂, h₃, h₄]

theorem step_heading (stp : ImpState) (line : Str) (h : startsWithS line (S "#") = true) :
    importLineStep stp line = (flushPB stp, some (.heading, line)) := by
  simp [importLineStep, h]

theorem step_fence_open (stp : ImpState) (line : Str)
    (h : startsWithS line (S "```") = true)
    (hcur : ∀ c, stp.2 ≠ some (.code, c)) :
    importLineStep stp line = (flushPB stp, some (.code, line)) := by
  obtain ⟨hh, -⟩ := fence_facts line h
  obtain ⟨acc, cur⟩ := stp
  cases cur with
  | none => simp [importLineStep, h, hh]
  | some p =>
    obtain ⟨t, c⟩ := p
    cases t with
    | code => exact absurd rfl (hcur c)
    | heading => simp [importLineStep, h, hh]
    | paragraph => simp [importLineStep, h, hh]
    | list => simp [importLineStep, h, hh]
    | table => simp [importLineStep, h, hh]

theorem step_fence_close (acc : List (BlockType × Str)) (c line : Str)
    (h : startsWithS line (S "```") = true) :
    importLineStep (acc, some (.code, c)) line = (acc ++ [(.code, c ++ '\n' :: line)], none) := by
  obtain ⟨hh, -⟩ := fence_facts line h
  simp [importLineStep, h, hh]

theorem step_list_new (stp : ImpState) (line : Str) (h : isListLine line = true)
    (hcur : ∀ c, stp.2 ≠ some (.list, c)) :
    importLineStep stp line = (flushPB stp, some (.list, line)) := by
  obtain ⟨hh, hf⟩ := isListLine_facts line h
  obtain ⟨acc, cur⟩ := stp
  cases cur with
  | none => simp [importLineStep, h, hh, hf]
  | some p =>
    obtain ⟨t, c⟩ := p
    cases t with
    | list => exact absurd rfl (hcur c)
    | heading => simp [importLineStep, h, hh, hf]
    | paragraph => simp [importLineStep, h, hh, hf]
    | code => simp [importLineStep, h, hh, hf]
    | table => simp [importLineStep, h, hh, hf]

theorem step_list_cont (acc : List (BlockType × Str)) (c line : Str)
    (h : isListLine line = true) :
    importLineStep (acc, some (.list, c)) line = (acc, some (.list, c ++ '\n' :: line)) := by
  obtain ⟨hh, hf⟩ := isListLine_facts line h
  simp [importLineStep, h, hh, hf]

theorem step_plain_fresh (stp : ImpState) (line : Str) (h : isPlainLine line = true)
    (hcur : ∀ t c, stp.2 = some (t, c) → t = .heading ∨ t = .table) :
    importLineStep stp line = (flushPB stp, some (.paragraph, line)) := by
  obtain ⟨hh, hf, hl, ht⟩ := isPlainLine_facts line h
  obtain ⟨acc, cur⟩ := stp
  cases cur with
  | none => simp [importLineStep, hh, hf, hl, ht]
  | some p =>
    obtain ⟨t, c⟩ := p
    cases t with
    | heading => simp [importLineStep, hh, hf, hl, ht]
    | table => simp [importLineStep, hh, hf, hl, ht]
    | paragraph => rcases hcur .paragraph c rfl with h₂ | h₂ <;> cases h₂
    | code => rcases hcur .code c rfl with h₂ | h₂ <;> cases h₂
    | list => rcases hcur .list c rfl with h₂ | h₂ <;> cases h₂

theorem step_plain_cont (acc : List (BlockType × Str)) (τ : BlockType) (c line : Str)
    (h : isPlainLine line = true) (hτ : τ = .paragraph ∨ τ = .code ∨ τ = .list) :
    importLineStep (acc, some (τ, c)) line = (acc, some (τ, c ++ '\n' :: line)) := by
  obtain ⟨hh, hf, hl, ht⟩ := isPlainLine_facts line h
  rcases hτ with rfl | rfl | rfl <;> simp [importLineStep, hh, hf, hl, ht]

theorem appendCont_cons (c l : Str) (ls : List Str) :
    appendCont c (l :: ls) = appendCont (c ++ '\n' :: l) ls := rfl

theorem joinNl_eq_appendCont (ls : List Str) (c : Str) :
    appendCont c ls = joinNl (c :: ls) := by
  induction ls generalizing c with
  | nil => rfl
  | cons l ls ih =>
    rw [appendCont_cons, ih]
    cases ls with
    | nil => rfl
    | cons x xs =>
      rw [joinNl_cons_cons, joinNl_cons_cons, joinNl_cons_cons]
      simp [List.append_assoc]

theorem appendCont_concat (c : Str) (ls : List Str) (l : Str) :
    appendCont c (ls ++ [l]) = appendCont c ls ++ '\n' :: l := by
  unfold appendCont
  rw [List.foldl_append]
  rfl

theorem foldCont (τ : BlockType) (hτ : τ = .paragraph ∨ τ = .code ∨ τ = .list)
    (ls : List Str) (acc : List (BlockType × Str)) (c : Str)
    (hls : ∀ l ∈ ls, contLine τ l = true) :
    ls.foldl importLineStep (acc, some (τ, c)) = (acc, some (τ, appendCont c ls)) := by
  induction ls generalizing c with
  | nil => rfl
  | cons l ls ih =>
    have hl := hls l (List.mem_cons_self _ _)
    have hstep : importLineStep (acc, some (τ, c)) l = (acc, some (τ, c ++ '\n' :: l)) := by
      rcases hτ with rfl | rfl | rfl
      · exact step_plain_cont acc _ c l hl (Or.inl rfl)
      · exact step_plain_cont acc _ c l hl (Or.inr (Or.inl rfl))
      · exact step_list_cont acc c l hl
    rw [List.foldl_cons, hstep,
      ih (c ++ '\n' :: l) (fun l₂ h₂ => hls l₂ (List.mem_cons_of_mem _ h₂)), appendCont_cons]

theorem importBlockStep (t : BlockType) (c : Str) (acc : List (BlockType × Str))
    (cur : Option (BlockType × Str))
    (hcanon : canonicalPB (t, c) = true)
    (hok : canStart (cur.map Prod.fst) t = true)
    (hcur : ∀ s, cur ≠ some (.code, s) ∧ cur ≠ some (.table, s)) :
    (splitNl c).foldl importLineStep (acc, cur) =
      (acc ++ cur.toList ++ (if t = .code then [(t, c)] else []),
       if t = .code then none else some (t, c)) := by
  cases t with
  | heading =>
    simp only [canonicalPB, Bool.and_eq_true, Bool.not_eq_true'] at hcanon
    obtain ⟨hst, hnl⟩ := hcanon
    have hnotin : '\n' ∉ c := by simpa using hnl
    rw [splitNl_of_no_newline c hnotin, List.foldl_cons, step_heading (acc, cur) c hst,
      List.foldl_nil]
    simp [flushPB]
  | paragraph =>
    simp only [canonicalPB, List.all_eq_true] at hcanon
    have hfresh : ∀ t₂ c₂, cur = some (t₂, c₂) → t₂ = .heading ∨ t₂ = .table := by
      intro t₂ c₂ he
      cases t₂ with
      | heading => exact Or.inl rfl
      | table => exact Or.inr rfl
      | code => exact absurd he (hcur c₂).1
      | paragraph => rw [he] at hok; simp [canStart] at hok
      | list => rw [he] at hok; simp [canStart] at hok
    rcases hsp : splitNl c with _ | ⟨l₁, ls⟩
    · exact absurd hsp (splitNl_ne_nil c)
    · have hl₁ : isPlainLine l₁ = true := hcanon l₁ (by rw [hsp]; exact List.mem_cons_self _ _)
      have hls : ∀ l ∈ ls, contLine BlockType.paragraph l = true := by
        intro l hl
        exact hcanon l (by rw [hsp]; exact List.mem_cons_of_mem _ hl)
      rw [List.foldl_cons, step_plain_fresh (acc, cur) l₁ hl₁ hfresh,
        foldCont .paragraph (Or.inl rfl) ls _ l₁ hls,
        joinNl_eq_appendCont, ← hsp, joinNl_splitNl]
      simp [flushPB]
  | list =>
    simp only [canonicalPB, List.all_eq_true] at hcanon
    have hnolist : ∀ c₂, cur ≠ some (.list, c₂) := by
      intro c₂ he
      rw [he] at hok
      simp [canStart] at hok
    rcases hsp : splitNl c with _ | ⟨l₁, ls⟩
    · exact absurd hsp (splitNl_ne_nil c)
    · have hl₁ : isListLine l₁ = true := hcanon l₁ (by rw [hsp]; exact List.mem_cons_self _ _)
      have hls : ∀ l ∈ ls, contLine BlockType.list l = true := by
        intro l hl
        exact hcanon l (by rw [hsp]; exact List.mem_cons_of_mem _ hl)
      rw [List.foldl_cons, step_list_new (acc, cur) l₁ hl₁ hnolist,
        foldCont .list (Or.inr (Or.inr rfl)) ls _ l₁ hls,
        joinNl_eq_appendCont, ← hsp, joinNl_splitNl]
      simp [flushPB]
  | code =>
    rcases hsp : splitNl c with _ | ⟨f, rest⟩
    · exact absurd hsp (splitNl_ne_nil c)
    · have hcanon₂ : startsWithS f (S "```") = true ∧ rest.isEmpty = false ∧
          (∀ l ∈ rest.dropLast, isPlainLine l = true) ∧
          startsWithS (rest.getLastD []) (S "```") = true := by
        simp only [canonicalPB] at hcanon
        rw [hsp] at hcanon
        simp only [Bool.and_eq_true, Bool.not_eq_true', List.all_eq_true] at hcanon
        exact ⟨hcanon.1.1.1, hcanon.1.1.2, hcanon.1.2, hcanon.2⟩
      obtain ⟨hf, hne, hmids, hg⟩ := hcanon₂
      have hrest : rest ≠ [] := by
        intro h₂
        rw [h₂] at hne
        cases hne
      rcases List.eq_nil_or_concat rest with h₂ | ⟨mids, g, rfl⟩
      · exact absurd h₂ hrest
      · simp only [List.concat_eq_append] at hsp hne hmids hg hrest ⊢
        rw [List.dropLast_concat] at hmids
        rw [List.getLastD_concat] at hg
        rw [List.foldl_cons, step_fence_open (acc, cur) f hf (fun s => (hcur s).1),
          List.foldl_append, foldCont .code (Or.inr (Or.inl rfl)) mids _ f hmids,
          List.foldl_cons, step_fence_close _ _ g hg, List.foldl_nil]
        have hc : appendCont f mids ++ '\n' :: g = c := by
          rw [← appendCont_concat, joinNl_eq_appendCont, ← hsp, joinNl_splitNl]
        rw [hc]
        simp [flushPB, List.append_assoc]
  | table => simp [canonicalPB] at hcanon

theorem lastResidual_cons (cur : Option (BlockType × Str)) (t : BlockType) (c : Str)
    (ps : List (BlockType × Str)) :
    lastResidual cur ((t, c) :: ps) =
      lastResidual (if t = .code then none else some (t, c)) ps := rfl

theorem importBlocksStep (ps : List (BlockType × Str)) (acc : List (BlockType × Str))
    (cur : Option (BlockType × Str))
    (hcanon : ∀ p ∈ ps, canonicalPB p = true)
    (hchain : chainOk (cur.map Prod.fst) ps = true)
    (hcur : ∀ s, cur ≠ some (.code, s) ∧ cur ≠ some (.table, s)) :
    ((linesForCs (ps.map Prod.snd)).foldl importLineStep (acc, cur)).1 ++
      ((linesForCs (ps.map Prod.snd)).foldl importLineStep (acc, cur)).2.toList =
      acc ++ cur.toList ++ ps ∧
    ((linesForCs (ps.map Prod.snd)).foldl importLineStep (acc, cur)).2 =
      lastResidual cur ps := by
  induction ps generalizing acc cur with
  | nil =>
    constructor
    · simp [linesForCs, lastResidual]
    · rfl
  | cons p rest ih =>
    obtain ⟨t, c⟩ := p
    have hhead : canonicalPB (t, c) = true := hcanon (t, c) (List.mem_cons_self _ _)
    have htnt : t ≠ .table := by
      intro h₂
      rw [h₂] at hhead
      simp [canonicalPB] at hhead
    have hchain₂ : canStart (cur.map Prod.fst) t = true ∧
        chainOk (residualAfter t) rest = true := by
      simp only [chainOk, Bool.and_eq_true] at hchain
      exact hchain
    have h₁ := importBlockStep t c acc cur hhead hchain₂.1 hcur
    cases rest with
    | nil =>
      have hl : linesForCs ([(t, c)].map Prod.snd) = splitNl c := rfl
      rw [hl, h₁]
      constructor
      · by_cases ht : t = .code
        · subst ht
          simp
        · rw [if_neg ht, if_neg ht]
          simp
      · rw [lastResidual_cons]
        show (if t = .code then none else some (t, c)) =
          lastResidual (if t = .code then none else some (t, c)) []
        rfl
    | cons q rest₂ =>
      have hl : linesForCs (((t, c) :: q :: rest₂).map Prod.snd) =
          splitNl c ++ ([] :: linesForCs ((q :: rest₂).map Prod.snd)) := rfl
      have hcanon₂ : ∀ p ∈ q :: rest₂, canonicalPB p = true :=
        fun p hp => hcanon p (List.mem_cons_of_mem _ hp)
      rw [hl, List.foldl_append, h₁, List.foldl_cons, step_blank, lastResidual_cons]
      by_cases ht : t = .code
      · subst ht
        rw [if_pos rfl, if_pos rfl] at h₁ ⊢
        have hchain₃ : chainOk ((none : Option (BlockType × Str)).map Prod.fst)
            (q :: rest₂) = true := by
          have := hchain₂.2
          rw [residualAfter, if_pos rfl] at this
          exact this
        have hcur₂ : ∀ s, (none : Option (BlockType × Str)) ≠ some (.code, s) ∧
            (none : Option (BlockType × Str)) ≠ some (.table, s) := by
          intro s
          exact ⟨by simp, by simp⟩
        obtain ⟨ihl, ihr⟩ := ih (acc ++ cur.toList ++ [(.code, c)]) none hcanon₂ hchain₃ hcur₂
        refine ⟨?_, ihr⟩
        rw [ihl]
        simp [List.append_assoc]
      · rw [if_neg ht, if_neg ht] at h₁ ⊢
        have hchain₃ : chainOk ((some (t, c)).map Prod.fst) (q :: rest₂) = true := by
          have h₃ := hchain₂.2
          rw [residualAfter, if_neg ht] at h₃
          exact h₃
        have hcur₂ : ∀ s, some (t, c) ≠ some (.code, s) ∧ some (t, c) ≠ some (.table, s) := by
          intro s
          constructor
          · intro he
            cases he
            exact ht rfl
          · intro he
            cases he
            exact htnt rfl
        obtain ⟨ihl, ihr⟩ := ih (acc ++ cur.toList ++ []) (some (t, c)) hcanon₂ hchain₃ hcur₂
        refine ⟨?_, ihr⟩
        rw [ihl]
        simp [List.append_assoc]

theorem substituteVariables_nil (t : Str) : substituteVariables [] t = t := rfl

theorem flatMap_map_snd_nn (l : List Block) :
    ((l.map (fun b => (b.type, rawMarkdown b))).map Prod.snd).flatMap
      (fun c => c ++ ['\n', '\n']) =
      l.flatMap (fun b => rawMarkdown b ++ ['\n', '\n']) := by
  induction l with
  | nil => rfl
  | cons b bs ih => simp only [List.map_cons, List.flatMap_cons, ih]

theorem emitItem_nil_vars (it : OItem) :
    emitItem [] it = ((itemPairs it).map Prod.snd).flatMap (fun c => c ++ ['\n', '\n']) := by
  cases it with
  | blk b => simp [emitItem, itemPairs, substituteVariables_nil]
  | grp g ms =>
    simp only [emitItem, itemPairs, substituteVariables_nil, flatMap_map_snd_nn]

theorem flatMap_emit_nil (items : List OItem) :
    items.flatMap (emitItem []) =
      ((items.flatMap itemPairs).map Prod.snd).flatMap (fun c => c ++ ['\n', '\n']) := by
  induction items with
  | nil => rfl
  | cons it items ih =>
    simp only [List.flatMap_cons, List.map_append, List.flatMap_append, ih,
      emitItem_nil_vars]

theorem generate_pairs (st : EditorState) (hv : st.vars = []) :
    generateMarkdown st =
      trimS (((emittedPairs st).map Prod.snd).flatMap (fun c => c ++ ['\n', '\n'])) := by
  unfold generateMarkdown emittedPairs
  rw [hv, flatMap_emit_nil]

theorem flatMapNn_eq_midJoin (cs : List Str) (h : cs ≠ []) :
    cs.flatMap (fun c => c ++ ['\n', '\n']) = midJoin cs ++ ['\n', '\n'] := by
  induction cs with
  | nil => exact absurd rfl h
  | cons c cs ih =>
    cases cs with
    | nil => simp [midJoin]
    | cons d ds =>
      rw [List.flatMap_cons, ih (by simp)]
      show c ++ ['\n', '\n'] ++ (midJoin (d :: ds) ++ ['\n', '\n']) =
        (c ++ '\n' :: '\n' :: midJoin (d :: ds)) ++ ['\n', '\n']
      simp [List.append_assoc]

theorem splitNl_midJoin (cs : List Str) (h : cs ≠ []) :
    splitNl (midJoin cs) = linesForCs cs := by
  induction cs with
  | nil => exact absurd rfl h
  | cons c cs ih =>
    cases cs with
    | nil => rfl
    | cons d ds =>
      show splitNl (c ++ '\n' :: ('\n' :: midJoin (d :: ds))) =
        splitNl c ++ ([] :: linesForCs (d :: ds))
      rw [splitNl_append_newline, splitNl_cons_newline, ih (by simp)]

theorem getLastD_irrel {α : Type} (l : List α) (a b : α) (h : l ≠ []) :
    l.getLastD a = l.getLastD b := by
  rw [List.getLastD_eq_getLast?, List.getLastD_eq_getLast?]
  cases hl : l.getLast? with
  | none => exact absurd (List.getLast?_eq_none_iff.mp hl) h
  | some x => rfl

theorem midJoin_head (c : Str) (cs : List Str) : ∃ x, midJoin (c :: cs) = c ++ x := by
  cases cs with
  | nil => exact ⟨[], by simp [midJoin]⟩
  | cons d ds => exact ⟨'\n' :: '\n' :: midJoin (d :: ds), rfl⟩

theorem midJoin_suffix (cs : List Str) (h : cs ≠ []) :
    ∃ pre, midJoin cs = pre ++ cs.getLastD [] := by
  induction cs with
  | nil => exact absurd rfl h
  | cons c cs ih =>
    cases cs with
    | nil => exact ⟨[], by simp [midJoin]⟩
    | cons d ds =>
      obtain ⟨pre, hpre⟩ := ih (by simp)
      refine ⟨c ++ '\n' :: '\n' :: pre, ?_⟩
      rw [show (c :: d :: ds).getLastD [] = (d :: ds).getLastD [] from by
        rw [List.getLastD_cons]
        exact getLastD_irrel _ _ _ (by simp)]
      show c ++ '\n' :: '\n' :: midJoin (d :: ds) =
        (c ++ '\n' :: '\n' :: pre) ++ (d :: ds).getLastD []
      rw [hpre]
      simp [List.append_assoc]

theorem dropWhile_nonws (d : Char) (r : Str) (hd : isWsChar d = false) :
    (d :: r).dropWhile isWsChar = d :: r := by
  simp [List.dropWhile_cons, hd]

theorem dropWhile_headNonWs (s tail : Str) (h : headNonWs s = true) :
    (s ++ tail).dropWhile isWsChar = s ++ tail := by
  cases s with
  | nil => cases h
  | cons d r =>
    have hd : isWsChar d = false := by simpa [headNonWs] using h
    rw [List.cons_append]
    exact dropWhile_nonws d _ hd

theorem trimS_midJoin (cs : List Str) (hne : cs ≠ [])
    (hh : headNonWs (cs.headD []) = true)
    (hl : headNonWs (cs.getLastD []).reverse = true) :
    trimS (midJoin cs ++ ['\n', '\n']) = midJoin cs := by
  rcases cs with _ | ⟨c, cs'⟩
  · exact absurd rfl hne
  · obtain ⟨x, hx⟩ := midJoin_head c cs'
    have hc : headNonWs c = true := hh
    obtain ⟨pre, hpre⟩ := midJoin_suffix (c :: cs') (by simp)
    rcases hrev : ((c :: cs').getLastD []).reverse with _ | ⟨e, rrest⟩
    · rw [hrev] at hl
      cases hl
    · rw [hrev] at hl
      have he : isWsChar e = false := by simpa [headNonWs] using hl
      have hform : midJoin (c :: cs') ++ ['\n', '\n'] = c ++ (x ++ ['\n', '\n']) := by
        rw [hx, List.append_assoc]
      have hrm : (midJoin (c :: cs')).reverse = e :: (rrest ++ pre.reverse) := by
        rw [hpre, List.reverse_append, hrev]
        simp
      unfold trimS
      rw [hform, dropWhile_headNonWs c _ hc, ← hform]
      rw [show (midJoin (c :: cs') ++ ['\n', '\n']).reverse =
        '\n' :: '\n' :: (midJoin (c :: cs')).reverse from by simp]
      rw [List.dropWhile_cons, if_pos (show isWsChar '\n' = true from rfl),
        List.dropWhile_cons, if_pos (show isWsChar '\n' = true from rfl)]
      rw [hrm, dropWhile_nonws e _ he, ← hrm, List.reverse_reverse]

/-- C3 (amended): the import of the generated markdown reproduces the emitted
block sequence exactly — same number of blocks, same types, same textual
content — provided the document has no variables, every emitted block text
is canonical for its type (heading: one `#` line; paragraph: non-blank
lines that are not heading/fence/list markers; list: `- `/`* ` lines; code:
fence, non-blank plain interior lines, closing fence; no tables), the
document does not start or end with whitespace, and no two consecutive
emitted blocks merge under the import rules (no paragraph directly after a
paragraph or list, no list directly after a list).  The counterexample
theorem shows the adjacency restriction is necessary: the claim as stated
fails already for two consecutive default paragraphs. -/
theorem C3_roundtrip_amended (st : EditorState)
    (hv : st.vars = [])
    (hcanon : ∀ p ∈ emittedPairs st, canonicalPB p = true)
    (hchain : chainOk none (emittedPairs st) = true)
    (hedge : edgeOk ((emittedPairs st).map Prod.snd) = true) :
    (importMarkdown st (generateMarkdown st)).blocks.map blockPair = emittedPairs st ∧
    (importMarkdown st (generateMarkdown st)).blocks.length = (emittedPairs st).length := by
  have hpairs : importedRaw (generateMarkdown st) = emittedPairs st := by
    by_cases hemp : emittedPairs st = []
    · rw [generate_pairs st hv, hemp]
      rfl
    · have hcsne : (emittedPairs st).map Prod.snd ≠ [] := by
        intro h₂
        exact hemp (List.map_eq_nil_iff.mp h₂)
      have hedge₂ : headNonWs (((emittedPairs st).map Prod.snd).headD []) = true ∧
          headNonWs (((emittedPairs st).map Prod.snd).getLastD []).reverse = true := by
        unfold edgeOk at hedge
        simp only [Bool.or_eq_true, Bool.and_eq_true, List.isEmpty_eq_true] at hedge
        rcases hedge with h₂ | h₂
        · exact absurd h₂ hcsne
        · exact h₂
      rw [generate_pairs st hv, flatMapNn_eq_midJoin _ hcsne,
        trimS_midJoin _ hcsne hedge₂.1 hedge₂.2]
      unfold importedRaw
      rw [splitNl_midJoin _ hcsne]
      obtain ⟨hfl, hres⟩ := importBlocksStep (emittedPairs st) [] none hcanon hchain
        (fun s => ⟨by simp, by simp⟩)
      unfold flushPB
      rw [hfl]
      simp
  have hmap : (importMarkdown st (generateMarkdown st)).blocks.map blockPair =
      emittedPairs st := by
    rw [show (importMarkdown st (generateMarkdown st)).blocks =
      buildImported st.idCounter (importedRaw (generateMarkdown st)) from rfl,
      buildImported_pairs, hpairs]
  exact ⟨hmap, by rw [← hmap, List.length_map]⟩

/-- Witness for C3 at a concrete canonical four-block document. -/
theorem C3_witness :
    (importMarkdown stCanonDoc (generateMarkdown stCanonDoc)).blocks.map blockPair =
      emittedPairs stCanonDoc ∧
    (importMarkdown stCanonDoc (generateMarkdown stCanonDoc)).blocks.length =
      (emittedPairs stCanonDoc).length :=
  C3_roundtrip_amended stCanonDoc (by decide) (by decide) (by decide) (by decide)

end MdEditor
